import Mathlib

/-!
# A* grid search (`astar.go`): shallow embedding and verification

The Go program keeps one `MapNodeProperty` object per grid cell and lets the
open list (a `container/heap` priority queue) hold *pointers* to those objects.
In this development a pointer to the object stored at `Nodes[y][x]` is
represented by the grid position `⟨x, y⟩` of that slot, so that every read
through a pointer (`Less`, `currentNode.movedStep`, ...) sees the current
contents of the node, exactly as the aliasing in the Go code does.

Go `int` values are modelled by `Int`; step counts and coordinates of a grid
that fits in memory are far from the 64-bit range.  `math.Abs` over `float64`
is exact on such values and is modelled by `Int.natAbs`; `Point.DistanceF64`
spells the machine arithmetic of `Distance` out and is shown to agree with it.

Loops that the Go code runs until a condition holds are given a fuel
argument; `Res.outOfFuel` is returned only when the fuel is exhausted and
`Res.panic` only where the Go runtime would panic (index out of range).
-/

namespace Astar

/-- Result of running a piece of the program with a bounded number of loop iterations. -/
inductive Res (α : Type) where
  | outOfFuel : Res α
  | panic : Res α
  | ok : α → Res α
deriving DecidableEq, Repr

/-- Go `type Point struct { X int; Y int }`. -/
structure Point where
  X : Int
  Y : Int
deriving DecidableEq, Repr

/-- Go `func (p *Point) Distance(pt *Point) int`. -/
def Point.Distance (p pt : Point) : Int :=
  ((p.X - pt.X).natAbs : Int) + ((p.Y - pt.Y).natAbs : Int)

/-- Go `func (p *Point) Equal(pt *Point) bool`. -/
def Point.Equal (p pt : Point) : Bool :=
  decide (p.X = pt.X) && decide (p.Y = pt.Y)

/-- Go constant `AttrNone`. -/
def AttrNone : Int := 0
/-- Go constant `AttrBlock`. -/
def AttrBlock : Int := 1
/-- Go constant `AttrStart`. -/
def AttrStart : Int := 2
/-- Go constant `AttrEnd`. -/
def AttrEnd : Int := 3

/-- Go `type MapNodeProperty struct`; `father == nil` is `none`. -/
structure MapNodeProperty where
  Attr : Int
  p : Point
  movedStep : Int
  toMoveStep : Int
  totalStep : Int
  father : Option Point
  walked : Bool
deriving DecidableEq, Repr

/-- Go `type PriorityQueue []*MapNodeProperty`: each entry is a pointer to a node of the
grid, represented by the position of the slot of `Nodes` that holds the node. -/
abbrev PriorityQueue := List Point

/-- Go `type Map struct`. -/
structure Map where
  Width : Int
  Height : Int
  Nodes : List (List MapNodeProperty)
  Start : Point
  End : Point
  OpenList : PriorityQueue
deriving DecidableEq, Repr

/-- The index expression `Nodes[p.Y][p.X]`; `none` where Go panics (index out of range). -/
def nodeAt (nodes : List (List MapNodeProperty)) (p : Point) : Option MapNodeProperty :=
  if 0 ≤ p.Y ∧ 0 ≤ p.X then
    match nodes[p.Y.toNat]? with
    | some row => row[p.X.toNat]?
    | none => none
  else none

/-- Writing through the pointer `Nodes[p.Y][p.X]`: the node stored in that slot is replaced. -/
def setNode (nodes : List (List MapNodeProperty)) (p : Point) (n : MapNodeProperty) :
    List (List MapNodeProperty) :=
  if 0 ≤ p.Y ∧ 0 ≤ p.X then
    match nodes[p.Y.toNat]? with
    | some row => nodes.set p.Y.toNat (row.set p.X.toNat n)
    | none => nodes
  else nodes

/-- The field `totalStep` read through a queue entry (a pointer into the grid).  A queue entry
always points to a node of the grid; the value 0 only fills the case of a position without a
node, which no pointer represents. -/
def keyOf (nodes : List (List MapNodeProperty)) (p : Point) : Int :=
  match nodeAt nodes p with
  | some n => n.totalStep
  | none => 0

/-- Go `func (pq PriorityQueue) Less(i, j int) bool`; `container/heap` calls it with indices
below `Len()` only. -/
def Less (nodes : List (List MapNodeProperty)) (pq : PriorityQueue) (i j : Nat) : Bool :=
  match pq[i]?, pq[j]? with
  | some a, some b => decide (keyOf nodes a < keyOf nodes b)
  | _, _ => false

/-- Go `func (pq PriorityQueue) Swap(i, j int)`; `container/heap` calls it with indices below
`Len()` only. -/
def Swap (pq : PriorityQueue) (i j : Nat) : PriorityQueue :=
  match pq[i]?, pq[j]? with
  | some a, some b => (pq.set i b).set j a
  | _, _ => pq

/-- Go standard library `container/heap`, `func up(h Interface, j int)`:
`for { i := (j - 1) / 2; if i == j || !h.Less(j, i) { break }; h.Swap(i, j); j = i }`.
The index strictly decreases, so `j + 1` iterations always suffice. -/
def up (nodes : List (List MapNodeProperty)) : Nat → PriorityQueue → Nat → PriorityQueue
  | 0, pq, _ => pq
  | fuel + 1, pq, j =>
    let i := (j - 1) / 2
    if i = j ∨ Less nodes pq j i = false then pq
    else up nodes fuel (Swap pq i j) i

/-- Go standard library `container/heap`, `func down(h Interface, i0, n int)`:
`for { j1 := 2*i + 1; if j1 >= n { break }; j := j1;
if j2 := j1 + 1; j2 < n && h.Less(j2, j1) { j = j2 };
if !h.Less(j, i) { break }; h.Swap(i, j); i = j }`.
The index strictly increases below `n`, so `n` iterations always suffice. -/
def down (nodes : List (List MapNodeProperty)) : Nat → PriorityQueue → Nat → Nat → PriorityQueue
  | 0, pq, _, _ => pq
  | fuel + 1, pq, i, n =>
    let j1 := 2 * i + 1
    if n ≤ j1 then pq
    else
      let j := if j1 + 1 < n ∧ Less nodes pq (j1 + 1) j1 = true then j1 + 1 else j1
      if Less nodes pq j i = false then pq
      else down nodes fuel (Swap pq i j) j n

/-- Go `heap.Push(&pq, x)`: `pq.Push(x)` appends, then `up(h, h.Len()-1)`. -/
def heapPush (nodes : List (List MapNodeProperty)) (pq : PriorityQueue) (x : Point) :
    PriorityQueue :=
  up nodes (pq.length + 1) (pq ++ [x]) pq.length

/-- Go `heap.Pop(&pq)`: `n := h.Len() - 1; h.Swap(0, n); down(h, 0, n); return h.Pop()`,
where `pq.Pop()` removes and returns the last entry.  `none` on an empty queue (Go panics). -/
def heapPop (nodes : List (List MapNodeProperty)) (pq : PriorityQueue) :
    Option (Point × PriorityQueue) :=
  match pq with
  | [] => none
  | _ :: _ =>
    let n := pq.length - 1
    let pq1 := down nodes n (Swap pq 0 n) 0 n
    match pq1.getLast? with
    | some item => some (item, pq1.dropLast)
    | none => none

/-- Go `func (m *Map) Neighbor(p *Point) []*Point`. -/
def Map.Neighbor (m : Map) (p : Point) : List Point :=
  (if p.X > 0 then [⟨p.X - 1, p.Y⟩] else []) ++
  (if p.Y > 0 then [⟨p.X, p.Y - 1⟩] else []) ++
  (if p.X < m.Width - 1 then [⟨p.X + 1, p.Y⟩] else []) ++
  (if p.Y < m.Height - 1 then [⟨p.X, p.Y + 1⟩] else [])

/-- One iteration of the inner `for _, point := range m.Neighbor(currentNode.p)` loop of
`Astar`; `cur` is the pointer `currentNode`.  `none` where Go panics. -/
def relaxOne (m : Map) (cur : Point) (point : Point) : Option Map :=
  match nodeAt m.Nodes point, nodeAt m.Nodes cur with
  | some dealingNode, some currentNode =>
    if dealingNode.Attr = AttrBlock then some m
    else
      let movedStep := currentNode.movedStep + 1
      let toMoveStep := dealingNode.p.Distance m.End
      let totalStep := movedStep + toMoveStep
      if dealingNode.walked = false ∨ dealingNode.totalStep > totalStep then
        let nodes := setNode m.Nodes point
          { dealingNode with
            father := some currentNode.p
            movedStep := movedStep
            toMoveStep := toMoveStep
            totalStep := totalStep
            walked := true }
        some { m with Nodes := nodes, OpenList := heapPush nodes m.OpenList point }
      else some m
  | _, _ => none

/-- The inner loop of `Astar` over the neighbours of the current node. -/
def relaxAll (m : Map) (cur : Point) : List Point → Option Map
  | [] => some m
  | point :: rest =>
    match relaxOne m cur point with
    | some m1 => relaxAll m1 cur rest
    | none => none

/-- The result of one iteration of the outer loop of `Astar`. -/
inductive Step where
  | done (found : Bool) (m : Map)
  | next (m : Map)
  | panic
deriving DecidableEq, Repr

/-- One iteration of `for m.OpenList.Len() != 0 { ... }` in `Astar`, the loop test included. -/
def loopStep (m : Map) : Step :=
  if m.OpenList.length = 0 then .done false m
  else
    match heapPop m.Nodes m.OpenList with
    | none => .panic
    | some (cur, pq) =>
      let m1 := { m with OpenList := pq }
      match nodeAt m1.Nodes cur with
      | none => .panic
      | some currentNode =>
        if currentNode.p.Equal m1.End = true then .done true m1
        else
          match relaxAll m1 cur (m1.Neighbor currentNode.p) with
          | some m2 => .next m2
          | none => .panic

/-- The outer loop of `Astar`, run for at most `fuel` iterations. -/
def loop : Nat → Map → Res (Bool × Map)
  | 0, _ => .outOfFuel
  | fuel + 1, m =>
    match loopStep m with
    | .done found m1 => .ok (found, m1)
    | .next m1 => loop fuel m1
    | .panic => .panic

/-- The statements of `Astar` before its loop: the open list is emptied, the start node is
initialised and pushed. -/
def Map.init (m : Map) : Option Map :=
  match nodeAt m.Nodes m.Start with
  | none => none
  | some startNode =>
    let toMoveStep := m.Start.Distance m.End
    let nodes := setNode m.Nodes m.Start
      { startNode with
        movedStep := 0
        toMoveStep := toMoveStep
        totalStep := 0 + toMoveStep
        walked := true }
    some { m with Nodes := nodes, OpenList := heapPush nodes [] m.Start }

/-- Go `func (m *Map) Astar() bool`, together with the map it leaves behind. -/
def Map.Astar (fuel : Nat) (m : Map) : Res (Bool × Map) :=
  match m.init with
  | none => .panic
  | some m0 => loop fuel m0

/-- The loop of `PrintPath` started at the node `cur` points to: the coordinates printed. -/
def pathFrom (nodes : List (List MapNodeProperty)) : Nat → Point → Res (List Point)
  | 0, _ => .outOfFuel
  | fuel + 1, cur =>
    match nodeAt nodes cur with
    | none => .panic
    | some currentNode =>
      match currentNode.father with
      | none => .ok [currentNode.p]
      | some f =>
        match pathFrom nodes fuel f with
        | .ok rest => .ok (currentNode.p :: rest)
        | .panic => .panic
        | .outOfFuel => .outOfFuel

/-- Go `func (m *Map) PrintPath()`: the sequence of coordinates it prints, from `End` back
along the `father` links. -/
def Map.PrintPath (fuel : Nat) (m : Map) : Res (List Point) :=
  pathFrom m.Nodes fuel m.End

/-- Go `main`: `m.Astar()` followed by `m.PrintPath()`; the result of the search and the
coordinates printed. -/
def Map.search (fuel : Nat) (m : Map) : Res (Bool × List Point) :=
  match m.Astar fuel with
  | .ok (found, m1) =>
    match m1.PrintPath fuel with
    | .ok route => .ok (found, route)
    | .panic => .panic
    | .outOfFuel => .outOfFuel
  | .panic => .panic
  | .outOfFuel => .outOfFuel

/-- Go `main` reduced to what the route length needs: the result of `Astar` and the number of
edges of the route `PrintPath` prints. -/
def Map.searchLength (fuel : Nat) (m : Map) : Res (Bool × Nat) :=
  match m.search fuel with
  | .ok (found, route) => .ok (found, route.length - 1)
  | .panic => .panic
  | .outOfFuel => .outOfFuel

/-- The map at the loop test after `k` further complete iterations of the loop of `Astar`
started in `m` (`none` when the loop has ended earlier). -/
def iterate (m : Map) : Nat → Option Map
  | 0 => some m
  | k + 1 =>
    match loopStep m with
    | .next m1 => iterate m1 k
    | _ => none

/-- The map at the loop test of `Astar` after `k` complete iterations of the loop
(`none` when the search has ended earlier). -/
def headState (m : Map) (k : Nat) : Option Map :=
  match m.init with
  | some m0 => iterate m0 k
  | none => none

/-! ## Specification vocabulary -/

/-- The point lies in the grid `[0,Width) x [0,Height)`. -/
def Map.InBounds (m : Map) (p : Point) : Prop :=
  0 ≤ p.X ∧ p.X < m.Width ∧ 0 ≤ p.Y ∧ p.Y < m.Height

instance (m : Map) (p : Point) : Decidable (m.InBounds p) :=
  inferInstanceAs (Decidable (0 ≤ p.X ∧ p.X < m.Width ∧ 0 ≤ p.Y ∧ p.Y < m.Height))

/-- The cell at `p` exists and its attribute is not `AttrBlock`. -/
def Map.Free (m : Map) (p : Point) : Prop :=
  m.InBounds p ∧ (nodeAt m.Nodes p).map (fun n => decide (n.Attr = AttrBlock)) = some false

instance (m : Map) (p : Point) : Decidable (m.Free p) :=
  inferInstanceAs (Decidable (m.InBounds p ∧
    (nodeAt m.Nodes p).map (fun n => decide (n.Attr = AttrBlock)) = some false))

/-- The cell in row `y`, column `x` exists, records its own coordinate and has fresh search
fields. -/
def cellFresh (nodes : List (List MapNodeProperty)) (x y : Nat) : Prop :=
  (nodeAt nodes ⟨x, y⟩).map (fun n => n.p) = some ⟨x, y⟩ ∧
  (nodeAt nodes ⟨x, y⟩).map (fun n => n.walked) = some false ∧
  (nodeAt nodes ⟨x, y⟩).map (fun n => n.father) = some none

instance (nodes : List (List MapNodeProperty)) (x y : Nat) : Decidable (cellFresh nodes x y) :=
  inferInstanceAs (Decidable (_ ∧ _ ∧ _))

/-- A well-formed map with fresh search fields: `Nodes` has `Height` rows of `Width` cells,
`Nodes[y][x].p = (x, y)`, every cell has `walked = false` and `father = nil`, `Start` and `End`
are distinct, in bounds and not blocked. -/
def Map.WellFormed (m : Map) : Prop :=
  m.Nodes.length = m.Height.toNat ∧
  (∀ row ∈ m.Nodes, row.length = m.Width.toNat) ∧
  (∀ y < m.Nodes.length, ∀ x < m.Width.toNat, cellFresh m.Nodes x y) ∧
  m.Start ≠ m.End ∧ m.Free m.Start ∧ m.Free m.End

instance (m : Map) : Decidable m.WellFormed :=
  inferInstanceAs (Decidable (_ ∧ _ ∧ _ ∧ _ ∧ _ ∧ _))

/-- Consecutive points of the list are at Manhattan distance exactly 1. -/
def stepsAdjacent : List Point → Bool
  | a :: b :: rest => decide (a.Distance b = 1) && stepsAdjacent (b :: rest)
  | _ => true

/-- A sequence of cells in which every cell is in bounds and not blocked and consecutive
cells are one orthogonal step apart. -/
def Map.IsWalk (m : Map) (l : List Point) : Prop :=
  (∀ p ∈ l, m.Free p) ∧ stepsAdjacent l = true

instance (m : Map) (l : List Point) : Decidable (m.IsWalk l) :=
  inferInstanceAs (Decidable (_ ∧ _))

/-- `b` can be reached from `a` by orthogonal steps through cells that are not blocked. -/
def Map.Reachable (m : Map) (a b : Point) : Prop :=
  ∃ l, m.IsWalk l ∧ l.head? = some a ∧ l.getLast? = some b

/-- The map `Generate` builds for a `w` by `h` grid when its random draws select the given
start, end and blocked cells. -/
def gridMap (w h : Nat) (blocked : List Point) (s e : Point) : Map :=
  { Width := w, Height := h, Start := s, End := e, OpenList := [],
    Nodes := (List.range h).map fun i => (List.range w).map fun j =>
      { Attr := if (⟨j, i⟩ : Point) = e then AttrEnd
                else if (⟨j, i⟩ : Point) = s then AttrStart
                else if (⟨j, i⟩ : Point) ∈ blocked then AttrBlock else AttrNone,
        p := ⟨j, i⟩, movedStep := 0, toMoveStep := 0, totalStep := 0,
        father := none, walked := false } }

/-- A 9 by 5 grid with seven blocked cells, start `(1,3)` and end `(7,1)`. -/
def detourMap : Map :=
  gridMap 9 5 [⟨0, 0⟩, ⟨6, 1⟩, ⟨8, 1⟩, ⟨5, 2⟩, ⟨8, 3⟩, ⟨5, 4⟩, ⟨8, 4⟩] ⟨1, 3⟩ ⟨7, 1⟩

/-- A 1 by 2 grid without blocked cells, start `(0,0)` and end `(0,1)`. -/
def twoCellMap : Map := gridMap 1 2 [] ⟨0, 0⟩ ⟨0, 1⟩

/-- The 3 by 1 grid of the specification: `(1,0)` blocked, start `(0,0)`, end `(2,0)`. -/
def wallMap : Map := gridMap 3 1 [⟨1, 0⟩] ⟨0, 0⟩ ⟨2, 0⟩

/-- The 3 by 3 grid of the specification without blocked cells, start `(0,0)`, end `(2,2)`. -/
def openMap : Map := gridMap 3 3 [] ⟨0, 0⟩ ⟨2, 2⟩

/-- A 16 by 5 grid without blocked cells, start `(14,1)` and end `(0,3)`. -/
def wideMap : Map := gridMap 16 5 [] ⟨14, 1⟩ ⟨0, 3⟩

/-- A 3 by 9 grid with seven blocked cells, start `(0,3)` and end `(2,7)`. -/
def staleKeyMap : Map :=
  gridMap 3 9 [⟨1, 0⟩, ⟨1, 2⟩, ⟨0, 4⟩, ⟨2, 4⟩, ⟨1, 5⟩, ⟨1, 8⟩, ⟨2, 8⟩] ⟨0, 3⟩ ⟨2, 7⟩

/-- The `heap.Pop` executed by iteration `k` of the loop of `Astar`: the `totalStep` of the
entry it returns and the `totalStep` of every entry that remains in `OpenList`. -/
def popKeys (m : Map) (k : Nat) : Option (Int × List Int) :=
  match headState m k with
  | some mk =>
    match heapPop mk.Nodes mk.OpenList with
    | some (cur, pq) => some (keyOf mk.Nodes cur, pq.map (keyOf mk.Nodes))
    | none => none
  | none => none

/-- A second call of `Astar` on the map left by a first call: both results. -/
def Map.searchTwice (fuel : Nat) (m : Map) : Res (Bool × Bool) :=
  match m.Astar fuel with
  | .ok (first, m1) =>
    match m1.Astar fuel with
    | .ok (second, _) => .ok (first, second)
    | .panic => .panic
    | .outOfFuel => .outOfFuel
  | .panic => .panic
  | .outOfFuel => .outOfFuel

/-! ## Invariants of the search -/

/-- The cell at `p` exists and has `walked = true`. -/
def Map.Walked (m : Map) (p : Point) : Prop :=
  ∃ n, nodeAt m.Nodes p = some n ∧ n.walked = true

/-- What holds of the map in every state of a search started from the well-formed fresh
map `m0`: the grid itself is the one of `m0`, and the search fields of the walked cells are
consistent with the `father` links. -/
structure Inv (m0 m : Map) : Prop where
  width : m.Width = m0.Width
  height : m.Height = m0.Height
  start : m.Start = m0.Start
  finish : m.End = m0.End
  shape : ∀ p, m.InBounds p ↔ ∃ n, nodeAt m.Nodes p = some n
  pos : ∀ p n, nodeAt m.Nodes p = some n → n.p = p
  attr : ∀ p, (nodeAt m.Nodes p).map (fun n => n.Attr) = (nodeAt m0.Nodes p).map (fun n => n.Attr)
  ne : m0.Start ≠ m0.End
  startFree : m0.Free m0.Start
  endFree : m0.Free m0.End
  startNode : ∀ n, nodeAt m.Nodes m.Start = some n →
    n.walked = true ∧ n.father = none ∧ n.movedStep = 0
  walkedOk : ∀ p n, nodeAt m.Nodes p = some n → n.walked = true →
    n.Attr ≠ AttrBlock ∧ 0 ≤ n.movedStep ∧ n.totalStep = n.movedStep + p.Distance m.End ∧
    (p = m.Start ∨ ∃ f nf, n.father = some f ∧ nodeAt m.Nodes f = some nf ∧
      nf.walked = true ∧ nf.movedStep < n.movedStep ∧ p.Distance f = 1)
  unwalkedOk : ∀ p n, nodeAt m.Nodes p = some n → n.walked = false → n.father = none
  heapOk : ∀ e ∈ m.OpenList, m.Walked e
  estimate : ∀ p n, nodeAt m.Nodes p = some n → n.walked = true →
    n.toMoveStep = p.Distance m.End

/-- Sum of `f` over all nodes of the grid. -/
def sumNodes (f : MapNodeProperty → Nat) (nodes : List (List MapNodeProperty)) : Nat :=
  (nodes.map fun row => (row.map f).sum).sum

/-- Number of cells that have not been walked. -/
def unwalkedCount (m : Map) : Nat :=
  sumNodes (fun n => if n.walked = true then 0 else 1) m.Nodes

/-- Sum of `totalStep` over the walked cells. -/
def totalSum (m : Map) : Nat :=
  sumNodes (fun n => if n.walked = true then n.totalStep.toNat else 0) m.Nodes

/-- The search made progress from `m` to `m1`: a cell was walked for the first time, or no
cell was and the `totalStep` of a walked cell went down. -/
def Progress (m m1 : Map) : Prop :=
  unwalkedCount m1 < unwalkedCount m ∨
  (unwalkedCount m1 = unwalkedCount m ∧ totalSum m1 < totalSum m)

/-- The map `m1` arises from `m` by relaxations: walked cells stay walked, queue entries stay
in the queue, every newly walked cell is in the queue, and if anything changed the search made
progress. -/
structure Ext (m m1 : Map) : Prop where
  walked : ∀ p, m.Walked p → m1.Walked p
  queue : ∀ e ∈ m.OpenList, e ∈ m1.OpenList
  fresh : ∀ p, m1.Walked p → m.Walked p ∨ p ∈ m1.OpenList
  progress : m1 = m ∨ Progress m m1

/-- Every walked cell is still in the queue or has all its free neighbours walked, and `End`
is in the queue once it is walked. -/
structure Closed (m : Map) : Prop where
  expanded : ∀ p, m.Walked p → p ∈ m.OpenList ∨ ∀ q ∈ m.Neighbor p, m.Free q → m.Walked q
  finish : m.Walked m.End → m.End ∈ m.OpenList

/-- The states the map passes through during `Astar` on `m0`: the state at a loop test, the
state right after a `heap.Pop`, and the states after each relaxation of the inner loop. -/
def During (m0 m : Map) : Prop :=
  ∃ k mk, headState m0 k = some mk ∧
    (m = mk ∨
      ∃ cur pq cn pre suf,
        mk.OpenList ≠ [] ∧ heapPop mk.Nodes mk.OpenList = some (cur, pq) ∧
        nodeAt mk.Nodes cur = some cn ∧
        (pre = [] ∨ cn.p.Equal mk.End = false) ∧
        mk.Neighbor cn.p = pre ++ suf ∧
        relaxAll { mk with OpenList := pq } cur pre = some m)

/-- The termination order of the loop of `Astar`: from `m` to `m1` the search made progress, or
the grid measures are unchanged and the queue got shorter. -/
def Smaller (m1 m : Map) : Prop :=
  Progress m m1 ∨
  (unwalkedCount m1 = unwalkedCount m ∧ totalSum m1 = totalSum m ∧
    m1.OpenList.length < m.OpenList.length)

/-- What is known of the map `mf` with which the loop of `Astar` on `m0` ends. -/
structure Post (m0 : Map) (found : Bool) (mf : Map) : Prop where
  inv : Inv m0 mf
  hit : found = true → mf.Walked mf.End
  miss : found = false → Closed mf ∧ mf.OpenList = []

/-- The field `movedStep` read through a pointer into the grid. -/
def movedOf (nodes : List (List MapNodeProperty)) (p : Point) : Int :=
  match nodeAt nodes p with
  | some n => n.movedStep
  | none => 0

/-- What holds of the list `route` of coordinates found by following `father` from the walked
cell `p`. -/
structure RouteOk (m : Map) (p : Point) (route : List Point) : Prop where
  head : route.head? = some p
  last : route.getLast? = some m.Start
  walked : ∀ q ∈ route, m.Walked q ∧ movedOf m.Nodes q ≤ movedOf m.Nodes p
  steps : stepsAdjacent route = true
  nodup : route.Nodup

/-- The map `Astar` leaves behind (the map itself when the run does not end within `fuel`
iterations). -/
def Map.afterAstar (fuel : Nat) (m : Map) : Map :=
  match m.Astar fuel with
  | .ok (_, mf) => mf
  | _ => m

/-! ## Comparing two runs -/

/-- The map with the `walked` flag of every cell set back to false; every other field,
`father`, `movedStep`, `toMoveStep`, `totalStep` and `OpenList` included, is kept. -/
def Map.clearWalked (m : Map) : Map :=
  { m with Nodes := m.Nodes.map fun row => row.map fun n => { n with walked := false } }

/-- Two nodes agree on everything a search reads: attribute, coordinate and `walked`, and for
walked nodes also `father`, `movedStep` and `totalStep`. -/
def NodeSim (a b : MapNodeProperty) : Prop :=
  a.Attr = b.Attr ∧ a.p = b.p ∧ a.walked = b.walked ∧
  (a.walked = true → a.father = b.father ∧ a.movedStep = b.movedStep ∧
    a.totalStep = b.totalStep)

/-- Two optional nodes are both absent or both present and similar. -/
def OptSim : Option MapNodeProperty → Option MapNodeProperty → Prop
  | some x, some y => NodeSim x y
  | none, none => True
  | _, _ => False

/-- Two maps a search cannot tell apart: same dimensions, endpoints and queue, similar nodes
in every slot, and every queue entry points to a walked node. -/
structure Sim (a b : Map) : Prop where
  width : a.Width = b.Width
  height : a.Height = b.Height
  start : a.Start = b.Start
  finish : a.End = b.End
  queue : a.OpenList = b.OpenList
  grid : ∀ p, OptSim (nodeAt a.Nodes p) (nodeAt b.Nodes p)
  heapWalked : ∀ e ∈ a.OpenList, ∀ n, nodeAt a.Nodes e = some n → n.walked = true

/-! ## The grid as `Astar` must leave it -/

/-- What of a map a search may not change: dimensions, endpoints and, slot by slot, the
attribute and the coordinate of every cell. -/
def Map.grid (m : Map) : Int × Int × Point × Point × List (List (Int × Point)) :=
  (m.Width, m.Height, m.Start, m.End, m.Nodes.map fun row => row.map fun n => (n.Attr, n.p))

/-! ## The arithmetic of `Distance` -/

/-- Go `int` arithmetic on a 64-bit platform: the value an `int` operation yields when its
mathematical result is `x`. -/
def wrapInt64 (x : Int) : Int :=
  (x + 2 ^ 63) % 2 ^ 64 - 2 ^ 63

/-- The `float64` nearest to the integer `x`, ties to even, given as an integer (every
`float64` of magnitude above `2 ^ 53` is an integer): `x` itself up to magnitude `2 ^ 53`,
otherwise `x` rounded to a significand of 53 bits. -/
def roundF64 (x : Int) : Int :=
  if x.natAbs ≤ 2 ^ 53 then x
  else
    let e := Nat.log2 x.natAbs - 52
    let q := x.natAbs / 2 ^ e
    let r := x.natAbs % 2 ^ e
    let q1 := if 2 * r > 2 ^ e ∨ (2 * r = 2 ^ e ∧ q % 2 = 1) then q + 1 else q
    Int.sign x * ((q1 * 2 ^ e : Nat) : Int)

/-- Go conversion `int(f)` of an integer-valued `float64`: the value itself when it fits in
64 bits (otherwise Go leaves the result to the implementation; amd64 yields the least `int`). -/
def intOfF64 (f : Int) : Int :=
  if -(2 ^ 63) ≤ f ∧ f < 2 ^ 63 then f else -(2 ^ 63)

/-- Go `func (p *Point) Distance(pt *Point) int` with its machine arithmetic spelled out:
`int(math.Abs(float64(p.X-pt.X)) + math.Abs(float64(p.Y-pt.Y)))`, the subtractions in 64-bit
`int`, the conversions and the sum in `float64`. -/
def Point.DistanceF64 (p pt : Point) : Int :=
  intOfF64 (roundF64
    (((roundF64 (wrapInt64 (p.X - pt.X))).natAbs : Int) +
      ((roundF64 (wrapInt64 (p.Y - pt.Y))).natAbs : Int)))

/-! ## Generate -/

/-- Go `rand.Intn(n)`: panics (`none`) unless `0 < n`, and otherwise yields some value in
`[0, n)`.  The random source is a stream `r` of natural numbers and `k` counts the draws made
so far, so that every sequence of results `rand.Intn` can give arises from some `r`. -/
def Intn (r : Nat → Nat) (k : Nat) (n : Int) : Option Int :=
  if 0 < n then some ((r k : Int) % n) else none

/-- The first loop of `Generate`, run for at most `fuel` iterations from draw number `k`:
`Start` and `End` are drawn until they differ.  Returns both and the number of draws
consumed. -/
def pickEnds (r : Nat → Nat) (w h : Int) : Nat → Nat → Res (Point × Point × Nat)
  | 0, _ => .outOfFuel
  | fuel + 1, k =>
    match Intn r k w, Intn r (k + 1) h, Intn r (k + 2) w, Intn r (k + 3) h with
    | some sx, some sy, some ex, some ey =>
      if Point.Equal ⟨sx, sy⟩ ⟨ex, ey⟩ = false then .ok (⟨sx, sy⟩, ⟨ex, ey⟩, k + 4)
      else pickEnds r w h fuel (k + 4)
    | _, _, _, _ => .panic

/-- The node `Generate` builds for row `i`, column `j`, its attribute drawn with draw number
`k`: `AttrNone` unless `rand.Intn(5)` is 0, then `AttrStart` at `Start`, then `AttrEnd` at
`End`; the search fields have their zero values. -/
def genNode (r : Nat → Nat) (k : Nat) (s e : Point) (i j : Nat) : MapNodeProperty :=
  let drawn := if (r k : Int) % 5 ≠ 0 then AttrNone else AttrBlock
  let atStart := if (i : Int) = s.Y ∧ (j : Int) = s.X then AttrStart else drawn
  let atEnd := if (i : Int) = e.Y ∧ (j : Int) = e.X then AttrEnd else atStart
  { Attr := atEnd, p := ⟨j, i⟩, movedStep := 0, toMoveStep := 0, totalStep := 0,
    father := none, walked := false }

/-- Go `func (m *Map) Generate()` with random source `r`; the first loop runs for at most
`fuel` iterations, the nodes are built row by row, one draw per cell. -/
def Map.Generate (r : Nat → Nat) (fuel : Nat) (m : Map) : Res Map :=
  match pickEnds r m.Width m.Height fuel 0 with
  | .ok (s, e, k) =>
    .ok { m with
      Start := s
      End := e
      Nodes := (List.range m.Height.toNat).map fun i =>
        (List.range m.Width.toNat).map fun j =>
          genNode r (k + i * m.Width.toNat + j) s e i j }
  | .panic => .panic
  | .outOfFuel => .outOfFuel

/-- Go `NewMap(m, n)`. -/
def NewMap (m n : Int) : Map :=
  { Width := m, Height := n, Nodes := [], Start := ⟨0, 0⟩, End := ⟨0, 0⟩, OpenList := [] }

/-! ## Observing a run -/

/-- The `heap.Pop` executed by iteration `k` of the loop of `Astar`: the cell whose node it
returns and the `movedStep` of that node at this moment. -/
def popCell (m : Map) (k : Nat) : Option (Point × Int) :=
  match headState m k with
  | some mk =>
    match heapPop mk.Nodes mk.OpenList with
    | some (cur, _) => some (cur, movedOf mk.Nodes cur)
    | none => none
  | none => none

/-- The cell `p` at the loop test after `k` iterations of the loop of `Astar`: its `movedStep`,
its `father`, and whether `OpenList` holds a pointer to it. -/
def cellAt (m : Map) (k : Nat) (p : Point) : Option (Int × Option Point × Bool) :=
  match headState m k with
  | some mk =>
    match nodeAt mk.Nodes p with
    | some n => some (n.movedStep, n.father, decide (p ∈ mk.OpenList))
    | none => none
  | none => none

/-- A 6 by 3 grid with five blocked cells, start `(4,1)` and end `(0,2)`. -/
def reopenMap : Map :=
  gridMap 6 3 [⟨0, 0⟩, ⟨0, 1⟩, ⟨3, 1⟩, ⟨1, 2⟩, ⟨5, 2⟩] ⟨4, 1⟩ ⟨0, 2⟩

/-- A 9 by 4 grid with four blocked cells, start `(8,1)` and end `(3,0)`. -/
def staleChildMap : Map :=
  gridMap 9 4 [⟨4, 0⟩, ⟨7, 1⟩, ⟨2, 3⟩, ⟨6, 3⟩] ⟨8, 1⟩ ⟨3, 0⟩

/-- From `m` to `m1` every walked cell stays walked and its `totalStep` does not grow. -/
def Lower (m m1 : Map) : Prop :=
  ∀ p n, nodeAt m.Nodes p = some n → n.walked = true →
    ∃ n1, nodeAt m1.Nodes p = some n1 ∧ n1.walked = true ∧ n1.totalStep ≤ n.totalStep

/-- Every free neighbour of `c` is walked with a `totalStep` that a relaxation from `c` with
`movedStep = g` cannot improve. -/
def Settled (m0 m : Map) (c : Point) (g : Int) : Prop :=
  ∀ q ∈ m0.Neighbor c, m0.Free q →
    ∃ nq, nodeAt m.Nodes q = some nq ∧ nq.walked = true ∧
      nq.totalStep ≤ g + 1 + q.Distance m0.End

/-- The map at the loop test after `k` iterations (the map itself when the run has ended
earlier). -/
def headMap (m : Map) (k : Nat) : Map :=
  match headState m k with
  | some mk => mk
  | none => m

/-! ## Neighbor -/

theorem Neighbor_eq_filter (m : Map) (p : Point) (hp : m.InBounds p) :
    m.Neighbor p =
      ([⟨p.X - 1, p.Y⟩, ⟨p.X, p.Y - 1⟩, ⟨p.X + 1, p.Y⟩, ⟨p.X, p.Y + 1⟩] : List Point).filter
        (fun q => decide (m.InBounds q)) := by
  obtain ⟨h1, h2, h3, h4⟩ := hp
  have e1 : m.InBounds ⟨p.X - 1, p.Y⟩ ↔ p.X > 0 := by simp only [Map.InBounds]; omega
  have e2 : m.InBounds ⟨p.X, p.Y - 1⟩ ↔ p.Y > 0 := by simp only [Map.InBounds]; omega
  have e3 : m.InBounds ⟨p.X + 1, p.Y⟩ ↔ p.X < m.Width - 1 := by simp only [Map.InBounds]; omega
  have e4 : m.InBounds ⟨p.X, p.Y + 1⟩ ↔ p.Y < m.Height - 1 := by simp only [Map.InBounds]; omega
  simp only [Map.Neighbor, List.filter_cons, List.filter_nil, e1, e2, e3, e4]
  by_cases a : p.X > 0 <;> by_cases b : p.Y > 0 <;> by_cases c : p.X < m.Width - 1 <;>
    by_cases d : p.Y < m.Height - 1 <;>
    simp [a, b, c, d]

theorem mem_Neighbor (m : Map) (p q : Point) (hp : m.InBounds p) :
    q ∈ m.Neighbor p ↔ (p.Distance q = 1 ∧ m.InBounds q) := by
  obtain ⟨h1, h2, h3, h4⟩ := hp
  obtain ⟨x, y⟩ := p
  obtain ⟨u, v⟩ := q
  simp only [Map.Neighbor, Map.InBounds, Point.Distance, List.mem_append, Point.mk.injEq] at *
  constructor
  · intro h
    rcases h with ((h | h) | h) | h <;> split at h <;> simp at h <;> omega
  · rintro ⟨hd, b1, b2, b3, b4⟩
    by_cases e1 : u = x - 1
    · left; left; left; rw [if_pos (by omega)]; simp; omega
    by_cases e2 : v = y - 1
    · left; left; right; rw [if_pos (by omega)]; simp; omega
    by_cases e3 : u = x + 1
    · left; right; rw [if_pos (by omega)]; simp; omega
    · right; rw [if_pos (by omega)]; simp; omega

theorem Neighbor_nodup (m : Map) (p : Point) : (m.Neighbor p).Nodup := by
  obtain ⟨x, y⟩ := p
  simp only [Map.Neighbor]
  by_cases a : x > 0 <;> by_cases b : y > 0 <;> by_cases c : x < m.Width - 1 <;>
    by_cases d : y < m.Height - 1 <;>
    simp [a, b, c, d] <;> omega

theorem Neighbor_length (m : Map) (p : Point) : (m.Neighbor p).length ≤ 4 := by
  simp only [Map.Neighbor]
  by_cases a : p.X > 0 <;> by_cases b : p.Y > 0 <;> by_cases c : p.X < m.Width - 1 <;>
    by_cases d : p.Y < m.Height - 1 <;>
    simp [a, b, c, d]

/-- C10: for a map with `Width, Height ≥ 1` and an in-bounds point `p`, `Neighbor p` is the
list west, north, east, south restricted to the points inside the grid; its members are
exactly the in-bounds points at Manhattan distance 1 from `p`; it has no duplicates and at most
four elements. -/
theorem C10_neighbor_contract (m : Map) (p : Point) (_hW : 1 ≤ m.Width) (_hH : 1 ≤ m.Height)
    (hp : m.InBounds p) :
    m.Neighbor p =
      ([⟨p.X - 1, p.Y⟩, ⟨p.X, p.Y - 1⟩, ⟨p.X + 1, p.Y⟩, ⟨p.X, p.Y + 1⟩] : List Point).filter
        (fun q => decide (m.InBounds q)) ∧
    (∀ q, q ∈ m.Neighbor p ↔ (p.Distance q = 1 ∧ m.InBounds q)) ∧
    (m.Neighbor p).Nodup ∧
    0 ≤ (m.Neighbor p).length ∧ (m.Neighbor p).length ≤ 4 :=
  ⟨Neighbor_eq_filter m p hp, fun q => mem_Neighbor m p q hp, Neighbor_nodup m p,
    Nat.zero_le _, Neighbor_length m p⟩

/-- Witness for C10 on the 3 by 3 grid at the centre cell. -/
theorem C10_neighbor_contract_witness :
    openMap.Neighbor ⟨1, 1⟩ = [⟨0, 1⟩, ⟨1, 0⟩, ⟨2, 1⟩, ⟨1, 2⟩] ∧
    (openMap.Neighbor ⟨1, 1⟩).Nodup := by
  have h := C10_neighbor_contract openMap ⟨1, 1⟩ (by decide) (by decide) (by decide)
  exact ⟨by rw [h.1]; decide, h.2.2.1⟩


/-! ## Reading and writing grid slots -/

theorem nodeAt_setNode (ns : List (List MapNodeProperty)) (p q : Point) (n : MapNodeProperty) :
    nodeAt (setNode ns p n) q =
      if q = p then (nodeAt ns p).map (fun _ => n) else nodeAt ns q := by
  obtain ⟨px, py⟩ := p
  obtain ⟨qx, qy⟩ := q
  unfold setNode
  by_cases hp : 0 ≤ py ∧ 0 ≤ px
  · simp only [hp, and_self, if_true]
    cases hrow : ns[py.toNat]? with
    | none =>
      simp only
      split
      · rename_i h
        simp only [Point.mk.injEq] at h
        obtain ⟨h1, h2⟩ := h
        subst h1; subst h2
        simp [nodeAt, hrow, hp]
      · rfl
    | some row =>
      simp only
      have hlen : py.toNat < ns.length := by
        rcases List.getElem?_eq_some.1 hrow with ⟨h, _⟩
        exact h
      by_cases hq : 0 ≤ qy ∧ 0 ≤ qx
      · simp only [nodeAt, hq, hp, and_self, if_true, hrow, Point.mk.injEq]
        by_cases hy : qy = py
        · subst hy
          simp only [List.getElem?_set_self hlen, hrow, and_true]
          by_cases hx : qx = px
          · subst hx
            simp only [if_true]
            by_cases hl : qx.toNat < row.length
            · simp [List.getElem?_set_self hl, List.getElem?_eq_getElem hl]
            · have : row.length ≤ qx.toNat := by omega
              simp [List.getElem?_eq_none, this]
          · simp only [hx, if_false]
            have : px.toNat ≠ qx.toNat := by omega
            simp [List.getElem?_set_ne this]
        · have : py.toNat ≠ qy.toNat := by omega
          simp [List.getElem?_set_ne this, hy]
      · have hne : ¬ (qx = px ∧ qy = py) := by
          rintro ⟨h1, h2⟩; subst h1; subst h2; exact hq hp
        simp [nodeAt, hq, hne]
  · simp only [hp, if_false]
    split
    · rename_i h
      simp only [Point.mk.injEq] at h
      obtain ⟨h1, h2⟩ := h
      subst h1; subst h2
      simp [nodeAt, hp]
    · rfl

theorem nodeAt_setNode_self (ns : List (List MapNodeProperty)) (p : Point)
    (n old : MapNodeProperty) (h : nodeAt ns p = some old) :
    nodeAt (setNode ns p n) p = some n := by
  rw [nodeAt_setNode, if_pos rfl, h]; rfl

theorem nodeAt_setNode_ne (ns : List (List MapNodeProperty)) (p q : Point)
    (n : MapNodeProperty) (h : q ≠ p) :
    nodeAt (setNode ns p n) q = nodeAt ns q := by
  rw [nodeAt_setNode, if_neg h]


/-! ## The priority queue operations only rearrange the entries -/

theorem Swap_length (pq : PriorityQueue) (i j : Nat) : (Swap pq i j).length = pq.length := by
  unfold Swap
  split <;> simp

theorem mem_Swap (pq : PriorityQueue) (i j : Nat) (x : Point) :
    x ∈ Swap pq i j ↔ x ∈ pq := by
  unfold Swap
  cases hi : pq[i]? with
  | none => simp
  | some a =>
    cases hj : pq[j]? with
    | none => simp
    | some b =>
      simp only
      have hil : i < pq.length := (List.getElem?_eq_some.1 hi).1
      have hjl : j < pq.length := (List.getElem?_eq_some.1 hj).1
      have key : ∀ k, ((pq.set i b).set j a)[k]? =
          if j = k then some a else if i = k then some b else pq[k]? := by
        intro k
        rw [List.getElem?_set, List.getElem?_set]
        simp [hil, hjl]
      rw [List.mem_iff_getElem?, List.mem_iff_getElem?]
      constructor
      · rintro ⟨k, hk⟩
        rw [key] at hk
        by_cases h1 : j = k
        · rw [if_pos h1] at hk
          exact ⟨i, by rw [hi, hk]⟩
        · rw [if_neg h1] at hk
          by_cases h2 : i = k
          · rw [if_pos h2] at hk
            exact ⟨j, by rw [hj, hk]⟩
          · rw [if_neg h2] at hk
            exact ⟨k, hk⟩
      · rintro ⟨k, hk⟩
        by_cases h2 : i = k
        · refine ⟨j, ?_⟩
          rw [key, if_pos rfl, ← hk, ← h2, hi]
        · by_cases h1 : j = k
          · refine ⟨i, ?_⟩
            rw [key]
            by_cases h3 : j = i
            · rw [if_pos h3, ← hk, ← h1, h3, hi]
            · rw [if_neg h3, if_pos rfl, ← hk, ← h1, hj]
          · exact ⟨k, by rw [key, if_neg h1, if_neg h2, hk]⟩

theorem up_length (ns : List (List MapNodeProperty)) (fuel : Nat) :
    ∀ (pq : PriorityQueue) (j : Nat), (up ns fuel pq j).length = pq.length := by
  induction fuel with
  | zero => intro pq j; rfl
  | succ n ih =>
    intro pq j
    simp only [up]
    split
    · rfl
    · rw [ih, Swap_length]

theorem mem_up (ns : List (List MapNodeProperty)) (fuel : Nat) (x : Point) :
    ∀ (pq : PriorityQueue) (j : Nat), x ∈ up ns fuel pq j ↔ x ∈ pq := by
  induction fuel with
  | zero => intro pq j; rfl
  | succ n ih =>
    intro pq j
    simp only [up]
    split
    · rfl
    · rw [ih, mem_Swap]

theorem down_length (ns : List (List MapNodeProperty)) (fuel : Nat) :
    ∀ (pq : PriorityQueue) (i n : Nat), (down ns fuel pq i n).length = pq.length := by
  induction fuel with
  | zero => intro pq i n; rfl
  | succ k ih =>
    intro pq i n
    simp only [down]
    split_ifs <;> simp [ih, Swap_length]

theorem mem_down (ns : List (List MapNodeProperty)) (fuel : Nat) (x : Point) :
    ∀ (pq : PriorityQueue) (i n : Nat), x ∈ down ns fuel pq i n ↔ x ∈ pq := by
  induction fuel with
  | zero => intro pq i n; rfl
  | succ k ih =>
    intro pq i n
    simp only [down]
    split_ifs <;> simp [ih, mem_Swap]

theorem heapPush_length (ns : List (List MapNodeProperty)) (pq : PriorityQueue) (x : Point) :
    (heapPush ns pq x).length = pq.length + 1 := by
  simp [heapPush, up_length]

theorem mem_heapPush (ns : List (List MapNodeProperty)) (pq : PriorityQueue) (x y : Point) :
    y ∈ heapPush ns pq x ↔ y ∈ pq ∨ y = x := by
  simp [heapPush, mem_up]

theorem heapPop_spec (ns : List (List MapNodeProperty)) (pq : PriorityQueue) (h : pq ≠ []) :
    ∃ cur rest, heapPop ns pq = some (cur, rest) ∧ rest.length + 1 = pq.length ∧
      ∀ x, x ∈ pq ↔ x = cur ∨ x ∈ rest := by
  cases pq with
  | nil => exact absurd rfl h
  | cons a t =>
    simp only [heapPop]
    generalize hq : down ns ((a :: t).length - 1) (Swap (a :: t) 0 ((a :: t).length - 1)) 0
      ((a :: t).length - 1) = pq1
    have hlen : pq1.length = (a :: t).length := by
      rw [← hq, down_length, Swap_length]
    have hmem : ∀ x, x ∈ pq1 ↔ x ∈ a :: t := by
      intro x; rw [← hq, mem_down, mem_Swap]
    cases hl : pq1.getLast? with
    | none =>
      rw [List.getLast?_eq_none_iff] at hl
      rw [hl] at hlen
      simp at hlen
    | some item =>
      refine ⟨item, pq1.dropLast, rfl, ?_, ?_⟩
      · rw [List.length_dropLast, hlen]; simp
      · intro x
        have e := List.dropLast_append_getLast? item hl
        rw [← hmem, ← e]
        simp only [List.mem_append, List.mem_singleton]
        rw [e]
        tauto

/-! ## The bounded loops of `container/heap` never stop early -/

theorem up_fuel (ns : List (List MapNodeProperty)) (fuel : Nat) :
    ∀ (pq : PriorityQueue) (j extra : Nat), j < fuel →
      up ns (fuel + extra) pq j = up ns fuel pq j := by
  induction fuel with
  | zero => intro pq j extra h; omega
  | succ k ih =>
    intro pq j extra h
    rw [Nat.add_right_comm]
    simp only [up]
    split
    · rfl
    · rename_i hc
      have hij : (j - 1) / 2 ≠ j := fun e => hc (Or.inl e)
      exact ih _ _ extra (by omega)

theorem down_fuel (ns : List (List MapNodeProperty)) (fuel : Nat) :
    ∀ (pq : PriorityQueue) (i n extra : Nat), n ≤ i + fuel →
      down ns (fuel + extra) pq i n = down ns fuel pq i n := by
  induction fuel with
  | zero =>
    intro pq i n extra h
    cases extra with
    | zero => rfl
    | succ e =>
      simp only [Nat.zero_add, down]
      rw [if_pos (by omega)]
  | succ k ih =>
    intro pq i n extra h
    rw [Nat.add_right_comm]
    simp only [down]
    split_ifs <;> first | rfl | exact ih _ _ _ extra (by omega)

/-! ## Sums over the grid -/

theorem sum_map_set {α : Type} (f : α → Nat) :
    ∀ (l : List α) (i : Nat) (a b : α), l[i]? = some b →
      ((l.set i a).map f).sum + f b = (l.map f).sum + f a := by
  intro l
  induction l with
  | nil => intro i a b h; simp at h
  | cons x t ih =>
    intro i a b h
    cases i with
    | zero =>
      simp only [List.getElem?_cons_zero, Option.some.injEq] at h
      subst h
      simp only [List.set_cons_zero, List.map_cons, List.sum_cons]
      omega
    | succ k =>
      simp only [List.getElem?_cons_succ] at h
      have := ih k a b h
      simp only [List.set_cons_succ, List.map_cons, List.sum_cons]
      omega

theorem sumNodes_setNode (f : MapNodeProperty → Nat) (ns : List (List MapNodeProperty))
    (p : Point) (n old : MapNodeProperty) (h : nodeAt ns p = some old) :
    sumNodes f (setNode ns p n) + f old = sumNodes f ns + f n := by
  unfold nodeAt at h
  unfold setNode
  by_cases hp : 0 ≤ p.Y ∧ 0 ≤ p.X
  · simp only [hp, and_self, if_true] at h ⊢
    cases hrow : ns[p.Y.toNat]? with
    | none => simp [hrow] at h
    | some row =>
      simp only [hrow] at h ⊢
      have h1 := sum_map_set f row p.X.toNat n old h
      have h2 := sum_map_set (fun r : List MapNodeProperty => (r.map f).sum) ns p.Y.toNat
        (row.set p.X.toNat n) row hrow
      simp only [sumNodes]
      simp only at h2
      omega
  · simp [hp] at h

/-! ## Basic facts about the invariant -/

theorem Distance_comm (p q : Point) : p.Distance q = q.Distance p := by
  simp only [Point.Distance]; omega

theorem Distance_nonneg (p q : Point) : 0 ≤ p.Distance q := by
  simp only [Point.Distance]; omega

theorem Distance_self (p : Point) : p.Distance p = 0 := by
  simp [Point.Distance]

theorem Inv.inBounds_iff {m0 m : Map} (h : Inv m0 m) (p : Point) :
    m.InBounds p ↔ m0.InBounds p := by
  simp only [Map.InBounds, h.width, h.height]

theorem Inv.free_iff {m0 m : Map} (h : Inv m0 m) (p : Point) : m.Free p ↔ m0.Free p := by
  have e : ∀ ns : List (List MapNodeProperty),
      (nodeAt ns p).map (fun n => decide (n.Attr = AttrBlock)) =
        ((nodeAt ns p).map (fun n => n.Attr)).map (fun a => decide (a = AttrBlock)) := by
    intro ns; rw [Option.map_map]; rfl
  simp only [Map.Free, h.inBounds_iff, e, h.attr]

theorem free_iff_node (m : Map) (p : Point) :
    m.Free p ↔ m.InBounds p ∧ ∃ n, nodeAt m.Nodes p = some n ∧ n.Attr ≠ AttrBlock := by
  unfold Map.Free
  cases h : nodeAt m.Nodes p with
  | none => simp
  | some n => simp

theorem Inv.walked_inBounds {m0 m : Map} (h : Inv m0 m) {p : Point} (hw : m.Walked p) :
    m.InBounds p := by
  obtain ⟨n, hn, _⟩ := hw
  exact (h.shape p).2 ⟨n, hn⟩

theorem Ext.refl (m : Map) : Ext m m :=
  ⟨fun _ h => h, fun _ h => h, fun _ h => Or.inl h, Or.inl rfl⟩

theorem Progress.chain {a b c : Map} (h1 : Progress a b) (h2 : Progress b c) : Progress a c := by
  unfold Progress at *
  omega

theorem Ext.compose {a b c : Map} (h1 : Ext a b) (h2 : Ext b c) : Ext a c := by
  refine ⟨fun p h => h2.walked p (h1.walked p h), fun e h => h2.queue e (h1.queue e h), ?_, ?_⟩
  · intro p h
    rcases h2.fresh p h with h | h
    · rcases h1.fresh p h with h | h
      · exact Or.inl h
      · exact Or.inr (h2.queue p h)
    · exact Or.inr h
  · rcases h1.progress with e1 | p1
    · rcases h2.progress with e2 | p2
      · exact Or.inl (by rw [e2, e1])
      · right; rw [← e1]; exact p2
    · rcases h2.progress with e2 | p2
      · right; rw [e2]; exact p1
      · exact Or.inr (p1.chain p2)

/-! ## One relaxation -/

theorem relaxOne_spec (m0 m : Map) (cur point : Point) (hI : Inv m0 m) (hc : m.Walked cur)
    (hn : point ∈ m.Neighbor cur) :
    ∃ m1, relaxOne m cur point = some m1 ∧ Inv m0 m1 ∧ Ext m m1 ∧
      (m.Free point → m1.Walked point) := by
  have hcb := hI.walked_inBounds hc
  obtain ⟨hdist, hpb⟩ := (mem_Neighbor m cur point hcb).1 hn
  obtain ⟨cn, hcn, hcw⟩ := hc
  obtain ⟨dn, hdn⟩ := (hI.shape point).1 hpb
  have hne : point ≠ cur := by
    intro e; rw [e, Distance_self] at hdist; omega
  have hcur := hI.walkedOk cur cn hcn hcw
  have hdp : dn.p = point := hI.pos point dn hdn
  have hcp : cn.p = cur := hI.pos cur cn hcn
  unfold relaxOne
  simp only [hdn, hcn]
  by_cases hblk : dn.Attr = AttrBlock
  · rw [if_pos hblk]
    refine ⟨m, rfl, hI, Ext.refl m, ?_⟩
    intro hf
    obtain ⟨_, n, hn', ha⟩ := (free_iff_node m point).1 hf
    rw [hdn] at hn'
    cases hn'
    exact absurd hblk ha
  rw [if_neg hblk]
  by_cases hcond : dn.walked = false ∨ dn.totalStep > cn.movedStep + 1 + dn.p.Distance m.End
  swap
  · rw [if_neg hcond]
    refine ⟨m, rfl, hI, Ext.refl m, ?_⟩
    intro _
    refine ⟨dn, hdn, ?_⟩
    cases hw : dn.walked with
    | true => rfl
    | false => exact absurd (Or.inl hw) hcond
  rw [if_pos hcond]
  -- the updated node and grid
  generalize hn' : ({ dn with
            father := some cn.p
            movedStep := cn.movedStep + 1
            toMoveStep := dn.p.Distance m.End
            totalStep := cn.movedStep + 1 + dn.p.Distance m.End
            walked := true } : MapNodeProperty) = n'
  have hn'w : n'.walked = true := by rw [← hn']
  have hn'a : n'.Attr = dn.Attr := by rw [← hn']
  have hn'p : n'.p = dn.p := by rw [← hn']
  have hn'f : n'.father = some cn.p := by rw [← hn']
  have hn'm : n'.movedStep = cn.movedStep + 1 := by rw [← hn']
  have hn't : n'.totalStep = cn.movedStep + 1 + dn.p.Distance m.End := by rw [← hn']
  generalize hns : setNode m.Nodes point n' = ns'
  have hat : ∀ q, nodeAt ns' q = if q = point then some n' else nodeAt m.Nodes q := by
    intro q
    rw [← hns, nodeAt_setNode, hdn]
    rfl
  -- the start node is never updated
  have hps : point ≠ m.Start := by
    intro e
    rw [e] at hdn
    obtain ⟨sw, _, sm⟩ := hI.startNode dn hdn
    have := (hI.walkedOk m.Start dn hdn sw).2.2.1
    rw [e] at hdp
    rw [hdp] at hcond
    rcases hcond with h | h
    · rw [sw] at h; cases h
    · omega
  -- an update of a walked node lowers its movedStep
  have hlow : dn.walked = true → n'.movedStep < dn.movedStep := by
    intro hw
    have := (hI.walkedOk point dn hdn hw).2.2.1
    rcases hcond with h | h
    · rw [hw] at h; cases h
    · rw [hdp] at h; omega
  have hwk : ∀ p, m.Walked p →
      Map.Walked { m with Nodes := ns', OpenList := heapPush ns' m.OpenList point } p := by
    intro p ⟨n, hn1, hn2⟩
    by_cases hp : p = point
    · exact ⟨n', by simp only [hat, hp, if_true], hn'w⟩
    · exact ⟨n, by simp only [hat, hp, if_false, hn1], hn2⟩
  refine ⟨_, rfl, ?_, ?_, ?_⟩
  · constructor
    · exact hI.width
    · exact hI.height
    · exact hI.start
    · exact hI.finish
    · intro p
      show m.InBounds p ↔ _
      rw [hI.shape p]
      simp only [hat]
      by_cases hp : p = point
      · simp [hp, hdn]
      · simp [hp]
    · intro p n h
      simp only [hat] at h
      by_cases hp : p = point
      · simp only [hp, if_true, Option.some.injEq] at h
        rw [← h, hn'p, hdp, hp]
      · simp only [hp, if_false] at h
        exact hI.pos p n h
    · intro p
      rw [← hI.attr p]
      simp only [hat]
      by_cases hp : p = point
      · simp [hp, hdn, hn'a]
      · simp [hp]
    · exact hI.ne
    · exact hI.startFree
    · exact hI.endFree
    · intro n h
      simp only [hat] at h
      rw [if_neg (Ne.symm hps)] at h
      exact hI.startNode n h
    · intro p n h hw
      simp only [hat] at h
      by_cases hp : p = point
      · simp only [hp, if_true, Option.some.injEq] at h
        subst h
        refine ⟨by rw [hn'a]; exact hblk, by rw [hn'm]; omega, ?_, Or.inr ?_⟩
        · show n'.totalStep = n'.movedStep + p.Distance m.End
          rw [hn't, hn'm, hdp, hp]
        · refine ⟨cur, cn, by rw [hn'f, hcp], ?_, hcw, by rw [hn'm]; omega, ?_⟩
          · simp only [hat]
            rw [if_neg (Ne.symm hne)]
            exact hcn
          · rw [hp, Distance_comm]; exact hdist
      · simp only [hp, if_false] at h
        obtain ⟨a1, a2, a3, a4⟩ := hI.walkedOk p n h hw
        refine ⟨a1, a2, a3, ?_⟩
        rcases a4 with a4 | ⟨f, nf, b1, b2, b3, b4, b5⟩
        · exact Or.inl a4
        · right
          by_cases hf : f = point
          · refine ⟨f, n', b1, by simp only [hat, hf, if_true], hn'w, ?_, b5⟩
            rw [hf, hdn] at b2
            cases b2
            have := hlow b3
            omega
          · exact ⟨f, nf, b1, by simp only [hat, hf, if_false, b2], b3, b4, b5⟩
    · intro p n h hw
      simp only [hat] at h
      by_cases hp : p = point
      · simp only [hp, if_true, Option.some.injEq] at h
        rw [← h, hn'w] at hw
        cases hw
      · simp only [hp, if_false] at h
        exact hI.unwalkedOk p n h hw
    · intro e he
      rw [mem_heapPush] at he
      rcases he with he | he
      · exact hwk e (hI.heapOk e he)
      · exact ⟨n', by simp only [hat, he, if_true], hn'w⟩
    · intro p n h hw
      simp only [hat] at h
      by_cases hp : p = point
      · simp only [hp, if_true, Option.some.injEq] at h
        rw [← h, ← hn', hdp, hp]
      · simp only [hp, if_false] at h
        exact hI.estimate p n h hw
  · constructor
    · exact hwk
    · intro e he
      exact (mem_heapPush _ _ _ _).2 (Or.inl he)
    · intro p ⟨n, h1, h2⟩
      by_cases hp : p = point
      · exact Or.inr ((mem_heapPush _ _ _ _).2 (Or.inr hp))
      · simp only [hat, hp, if_false] at h1
        exact Or.inl ⟨n, h1, h2⟩
    · right
      have s1 : sumNodes (fun n => if n.walked = true then 0 else 1) ns' +
          (if dn.walked = true then 0 else 1) =
          sumNodes (fun n => if n.walked = true then 0 else 1) m.Nodes +
          (if n'.walked = true then 0 else 1) := by
        rw [← hns]
        exact sumNodes_setNode (fun n => if n.walked = true then 0 else 1) m.Nodes point n' dn hdn
      have s2 : sumNodes (fun n => if n.walked = true then n.totalStep.toNat else 0) ns' +
          (if dn.walked = true then dn.totalStep.toNat else 0) =
          sumNodes (fun n => if n.walked = true then n.totalStep.toNat else 0) m.Nodes +
          (if n'.walked = true then n'.totalStep.toNat else 0) := by
        rw [← hns]
        exact sumNodes_setNode (fun n => if n.walked = true then n.totalStep.toNat else 0)
          m.Nodes point n' dn hdn
      rw [if_pos hn'w] at s1 s2
      show sumNodes (fun n => if n.walked = true then 0 else 1) ns' <
            sumNodes (fun n => if n.walked = true then 0 else 1) m.Nodes ∨
          (sumNodes (fun n => if n.walked = true then 0 else 1) ns' =
              sumNodes (fun n => if n.walked = true then 0 else 1) m.Nodes ∧
            sumNodes (fun n => if n.walked = true then n.totalStep.toNat else 0) ns' <
              sumNodes (fun n => if n.walked = true then n.totalStep.toNat else 0) m.Nodes)
      by_cases hw : dn.walked = true
      · right
        rw [if_pos hw] at s1 s2
        have h3 := (hI.walkedOk point dn hdn hw).2.2.1
        have h4 := hlow hw
        have h5 := Distance_nonneg point m.End
        have h6 := hcur.2.1
        rw [hdp] at hn't
        have h7 : n'.totalStep.toNat < dn.totalStep.toNat := by omega
        constructor
        · omega
        · omega
      · left
        rw [if_neg hw] at s1
        omega
  · intro _
    exact ⟨n', by simp only [hat, if_true], hn'w⟩

/-! ## The inner loop -/

theorem Neighbor_congr (m m1 : Map) (hw : m1.Width = m.Width) (hh : m1.Height = m.Height)
    (p : Point) : m1.Neighbor p = m.Neighbor p := by
  simp only [Map.Neighbor, hw, hh]

theorem Inv.neighbor {m0 m : Map} (h : Inv m0 m) (p : Point) : m.Neighbor p = m0.Neighbor p :=
  Neighbor_congr m0 m h.width h.height p

theorem relaxAll_spec (m0 : Map) (cur : Point) :
    ∀ (l : List Point) (m : Map), Inv m0 m → m.Walked cur → (∀ q ∈ l, q ∈ m0.Neighbor cur) →
      ∃ m1, relaxAll m cur l = some m1 ∧ Inv m0 m1 ∧ Ext m m1 ∧
        (∀ q ∈ l, m0.Free q → m1.Walked q) := by
  intro l
  induction l with
  | nil =>
    intro m hI _ _
    exact ⟨m, rfl, hI, Ext.refl m, fun q hq => absurd hq (List.not_mem_nil q)⟩
  | cons point rest ih =>
    intro m hI hc hl
    have hpn : point ∈ m.Neighbor cur := by
      rw [hI.neighbor]; exact hl point (List.mem_cons_self _ _)
    obtain ⟨m1, h1, hI1, hE1, hF1⟩ := relaxOne_spec m0 m cur point hI hc hpn
    obtain ⟨m2, h2, hI2, hE2, hF2⟩ := ih m1 hI1 (hE1.walked cur hc)
      (fun q hq => hl q (List.mem_cons_of_mem _ hq))
    refine ⟨m2, ?_, hI2, hE1.compose hE2, ?_⟩
    · simp only [relaxAll, h1, h2]
    · intro q hq hf
      rcases List.mem_cons.1 hq with e | hq
      · rw [e]
        exact hE2.walked point (hF1 ((hI.free_iff point).2 (e ▸ hf)))
      · exact hF2 q hq hf

/-! ## Initialisation -/

theorem Map.WellFormed.shape {m : Map} (h : m.WellFormed) (p : Point) :
    m.InBounds p ↔ ∃ n, nodeAt m.Nodes p = some n := by
  obtain ⟨hrows, hcols, _⟩ := h
  unfold nodeAt Map.InBounds
  constructor
  · rintro ⟨h1, h2, h3, h4⟩
    have hy : p.Y.toNat < m.Nodes.length := by omega
    rw [if_pos ⟨h3, h1⟩, List.getElem?_eq_getElem hy]
    have hx : p.X.toNat < (m.Nodes[p.Y.toNat]).length := by
      rw [hcols _ (List.getElem_mem hy)]; omega
    exact ⟨_, List.getElem?_eq_getElem hx⟩
  · rintro ⟨n, hn⟩
    by_cases hp : 0 ≤ p.Y ∧ 0 ≤ p.X
    · rw [if_pos hp] at hn
      cases hrow : m.Nodes[p.Y.toNat]? with
      | none => simp [hrow] at hn
      | some row =>
        simp only [hrow] at hn
        obtain ⟨hy, hrow'⟩ := List.getElem?_eq_some.1 hrow
        obtain ⟨hx, _⟩ := List.getElem?_eq_some.1 hn
        have := hcols row (hrow' ▸ List.getElem_mem hy)
        omega
    · simp [hp] at hn

theorem Map.WellFormed.cell {m : Map} (h : m.WellFormed) (p : Point) (n : MapNodeProperty)
    (hn : nodeAt m.Nodes p = some n) : n.p = p ∧ n.walked = false ∧ n.father = none := by
  have hb := (h.shape p).2 ⟨n, hn⟩
  obtain ⟨hrows, _, hcell, _⟩ := h
  obtain ⟨h1, h2, h3, h4⟩ := hb
  have := hcell p.Y.toNat (by omega) p.X.toNat (by omega)
  unfold cellFresh at this
  have e : (⟨(p.X.toNat : Int), (p.Y.toNat : Int)⟩ : Point) = p := by
    obtain ⟨x, y⟩ := p
    simp only at h1 h3
    simp only [Point.mk.injEq]
    constructor <;> omega
  rw [e, hn] at this
  simpa using this

theorem heapPush_nil (ns : List (List MapNodeProperty)) (x : Point) : heapPush ns [] x = [x] := by
  simp [heapPush, up]

theorem init_spec (m : Map) (h : m.WellFormed) :
    ∃ m1, m.init = some m1 ∧ Inv m m1 ∧ Closed m1 := by
  have hsf := h.2.2.2.2.1
  have hef := h.2.2.2.2.2
  have hne := h.2.2.2.1
  obtain ⟨sn, hsn⟩ := (h.shape m.Start).1 hsf.1
  obtain ⟨hsp, hsw, hsfa⟩ := h.cell m.Start sn hsn
  unfold Map.init
  simp only [hsn, heapPush_nil]
  generalize hn' : ({ sn with
        movedStep := 0
        toMoveStep := m.Start.Distance m.End
        totalStep := 0 + m.Start.Distance m.End
        walked := true } : MapNodeProperty) = n'
  have hn'w : n'.walked = true := by rw [← hn']
  have hn'a : n'.Attr = sn.Attr := by rw [← hn']
  have hn'p : n'.p = sn.p := by rw [← hn']
  have hn'f : n'.father = sn.father := by rw [← hn']
  have hn'm : n'.movedStep = 0 := by rw [← hn']
  have hn't : n'.totalStep = 0 + m.Start.Distance m.End := by rw [← hn']
  generalize hns : setNode m.Nodes m.Start n' = ns'
  have hat : ∀ q, nodeAt ns' q = if q = m.Start then some n' else nodeAt m.Nodes q := by
    intro q
    rw [← hns, nodeAt_setNode, hsn]
    rfl
  have honly : ∀ p n, nodeAt ns' p = some n → n.walked = true → p = m.Start := by
    intro p n hp hw
    by_contra hps
    simp only [hat, hps, if_false] at hp
    rw [(h.cell p n hp).2.1] at hw
    cases hw
  refine ⟨_, rfl, ?_, ?_⟩
  · constructor
    · rfl
    · rfl
    · rfl
    · rfl
    · intro p
      show m.InBounds p ↔ _
      rw [h.shape p]
      simp only [hat]
      by_cases hp : p = m.Start
      · simp [hp, hsn]
      · simp [hp]
    · intro p n hp
      simp only [hat] at hp
      by_cases hps : p = m.Start
      · simp only [hps, if_true, Option.some.injEq] at hp
        rw [← hp, hn'p, hsp, hps]
      · simp only [hps, if_false] at hp
        exact (h.cell p n hp).1
    · intro p
      simp only [hat]
      by_cases hp : p = m.Start
      · simp [hp, hsn, hn'a]
      · simp [hp]
    · exact hne
    · exact hsf
    · exact hef
    · intro n hn
      simp only [hat, if_true, Option.some.injEq] at hn
      rw [← hn]
      exact ⟨hn'w, by rw [hn'f, hsfa], hn'm⟩
    · intro p n hp hw
      have hps := honly p n hp hw
      subst hps
      simp only [hat, if_true, Option.some.injEq] at hp
      subst hp
      refine ⟨?_, by rw [hn'm], ?_, Or.inl rfl⟩
      · rw [hn'a]
        obtain ⟨_, n2, h2, h3⟩ := (free_iff_node m m.Start).1 hsf
        rw [hsn] at h2
        cases h2
        exact h3
      · show n'.totalStep = n'.movedStep + m.Start.Distance m.End
        rw [hn't, hn'm]
    · intro p n hp hw
      by_cases hps : p = m.Start
      · simp only [hat, hps, if_true, Option.some.injEq] at hp
        rw [← hp, hn'w] at hw
        cases hw
      · simp only [hat, hps, if_false] at hp
        exact (h.cell p n hp).2.2
    · intro e he
      simp only [List.mem_singleton] at he
      exact ⟨n', by simp only [hat, he, if_true], hn'w⟩
    · intro p n hp hw
      have hps := honly p n hp hw
      subst hps
      simp only [hat, if_true, Option.some.injEq] at hp
      rw [← hp, ← hn']
  · constructor
    · rintro p ⟨n, hp, hw⟩
      left
      have := honly p n hp hw
      simp [this]
    · rintro ⟨n, hp, hw⟩
      have := honly m.End n hp hw
      exact absurd this.symm hne

/-! ## One iteration of the outer loop -/

theorem Equal_iff (p q : Point) : p.Equal q = true ↔ p = q := by
  obtain ⟨a, b⟩ := p
  obtain ⟨c, d⟩ := q
  simp [Point.Equal]

theorem Inv.popped {m0 m : Map} (hI : Inv m0 m) (pq : PriorityQueue)
    (hsub : ∀ e ∈ pq, e ∈ m.OpenList) : Inv m0 { m with OpenList := pq } :=
  { width := hI.width, height := hI.height, start := hI.start, finish := hI.finish,
    shape := hI.shape, pos := hI.pos, attr := hI.attr, ne := hI.ne,
    startFree := hI.startFree, endFree := hI.endFree, startNode := hI.startNode,
    walkedOk := hI.walkedOk, unwalkedOk := hI.unwalkedOk,
    heapOk := fun e he => hI.heapOk e (hsub e he), estimate := hI.estimate }

theorem loopStep_spec (m0 m : Map) (hI : Inv m0 m) (hC : Closed m) :
    (m.OpenList = [] ∧ loopStep m = .done false m) ∨
    (∃ pq, heapPop m.Nodes m.OpenList = some (m.End, pq) ∧
      loopStep m = .done true { m with OpenList := pq } ∧
      Inv m0 { m with OpenList := pq } ∧ m.Walked m.End) ∨
    (∃ m2, loopStep m = .next m2 ∧ Inv m0 m2 ∧ Closed m2 ∧ Smaller m2 m) := by
  by_cases hq : m.OpenList = []
  · left
    exact ⟨hq, by simp [loopStep, hq]⟩
  right
  obtain ⟨cur, pq, hpop, hlen, hmem⟩ := heapPop_spec m.Nodes m.OpenList hq
  have hcw : m.Walked cur := hI.heapOk cur ((hmem cur).2 (Or.inl rfl))
  obtain ⟨cn, hcn, hcnw⟩ := hcw
  have hcp : cn.p = cur := hI.pos cur cn hcn
  have hI1 : Inv m0 { m with OpenList := pq } := hI.popped pq (fun e he => (hmem e).2 (Or.inr he))
  have hl0 : ¬ m.OpenList.length = 0 := by
    intro h; exact hq (List.length_eq_zero.1 h)
  unfold loopStep
  simp only [hl0, if_false, hpop, hcn]
  by_cases he : cn.p.Equal m.End = true
  · left
    have hce : cur = m.End := by rw [← hcp]; exact (Equal_iff _ _).1 he
    refine ⟨pq, by rw [← hce], ?_, hI1, ?_⟩
    · simp only [he, if_true]
    · rw [← hce]; exact ⟨cn, hcn, hcnw⟩
  · right
    have hce : cur ≠ m.End := by
      intro e; apply he; rw [hcp, e]; exact (Equal_iff _ _).2 rfl
    simp only [he, if_false]
    obtain ⟨m2, h2, hI2, hE2, hF2⟩ := relaxAll_spec m0 cur
      (Map.Neighbor { m with OpenList := pq } cn.p) { m with OpenList := pq } hI1
      ⟨cn, hcn, hcnw⟩ (by
        intro q hq'
        rw [hcp, hI1.neighbor] at hq'
        exact hq')
    refine ⟨m2, by simp [h2], hI2, ?_, ?_⟩
    · constructor
      · intro p hp
        have hexp : ∀ q ∈ m2.Neighbor cur, m2.Free q → m2.Walked q := by
          intro q hq' hf
          refine hF2 q ?_ ((hI2.free_iff q).1 hf)
          rw [hcp]
          rw [hI2.neighbor, ← hI1.neighbor] at hq'
          exact hq'
        rcases hE2.fresh p hp with hp1 | hp1
        · have hp0 : m.Walked p := hp1
          rcases hC.expanded p hp0 with h | h
          · rcases (hmem p).1 h with h | h
            · right; rw [h]; exact hexp
            · left; exact hE2.queue p h
          · right
            intro q hq' hf
            rw [hI2.neighbor, ← hI.neighbor] at hq'
            exact hE2.walked q (h q hq' ((hI.free_iff q).2 ((hI2.free_iff q).1 hf)))
        · exact Or.inl hp1
      · intro hp
        have hfin : m2.End = m.End := by rw [hI2.finish, hI.finish]
        rw [hfin] at hp ⊢
        rcases hE2.fresh m.End hp with hp1 | hp1
        · have hp0 : m.Walked m.End := hp1
          rcases (hmem m.End).1 (hC.finish hp0) with h | h
          · exact absurd h.symm hce
          · exact hE2.queue m.End h
        · exact hp1
    · rcases hE2.progress with e | e
      · right
        rw [e]
        refine ⟨rfl, rfl, ?_⟩
        show pq.length < m.OpenList.length
        omega
      · left
        exact e

/-! ## Termination of the outer loop -/

theorem Smaller_wf : WellFounded Smaller := by
  have hwf : WellFounded (Prod.Lex (fun a b : Nat => a < b)
      (Prod.Lex (fun a b : Nat => a < b) (fun a b : Nat => a < b))) :=
    WellFounded.prod_lex Nat.lt_wfRel.wf (WellFounded.prod_lex Nat.lt_wfRel.wf Nat.lt_wfRel.wf)
  refine Subrelation.wf ?_
    (InvImage.wf (fun m : Map => (unwalkedCount m, totalSum m, m.OpenList.length)) hwf)
  intro a b h
  show Prod.Lex _ _ (unwalkedCount a, totalSum a, a.OpenList.length)
    (unwalkedCount b, totalSum b, b.OpenList.length)
  rcases h with (h | ⟨h1, h2⟩) | ⟨h1, h2, h3⟩
  · exact Prod.Lex.left _ _ h
  · rw [h1]
    exact Prod.Lex.right _ (Prod.Lex.left _ _ h2)
  · rw [h1, h2]
    exact Prod.Lex.right _ (Prod.Lex.right _ h3)

theorem loop_terminates (m0 : Map) :
    ∀ m, Inv m0 m → Closed m → ∃ fuel found mf, loop fuel m = .ok (found, mf) := by
  intro m
  induction m using Smaller_wf.induction with
  | _ m ih =>
    intro hI hC
    rcases loopStep_spec m0 m hI hC with ⟨_, h⟩ | ⟨pq, _, h, _⟩ | ⟨m2, h, hI2, hC2, hS⟩
    · exact ⟨1, false, m, by simp [loop, h]⟩
    · exact ⟨1, true, { m with OpenList := pq }, by simp [loop, h]⟩
    · obtain ⟨fuel, found, mf, hf⟩ := ih m2 hS hI2 hC2
      exact ⟨fuel + 1, found, mf, by simp [loop, h, hf]⟩

theorem loop_post (m0 : Map) :
    ∀ (fuel : Nat) (m : Map) (found : Bool) (mf : Map), Inv m0 m → Closed m →
      loop fuel m = .ok (found, mf) → Post m0 found mf := by
  intro fuel
  induction fuel with
  | zero => intro m found mf _ _ h; simp [loop] at h
  | succ k ih =>
    intro m found mf hI hC h
    rcases loopStep_spec m0 m hI hC with ⟨hq, hs⟩ | ⟨pq, _, hs, hI1, hw⟩ | ⟨m2, hs, hI2, hC2, _⟩
    · simp only [loop, hs, Res.ok.injEq, Prod.mk.injEq] at h
      obtain ⟨h1, h2⟩ := h
      subst h1; subst h2
      exact ⟨hI, (fun h => by cases h), fun _ => ⟨hC, hq⟩⟩
    · simp only [loop, hs, Res.ok.injEq, Prod.mk.injEq] at h
      obtain ⟨h1, h2⟩ := h
      subst h1; subst h2
      exact ⟨hI1, fun _ => hw, (fun h => by cases h)⟩
    · simp only [loop, hs] at h
      exact ih m2 found mf hI2 hC2 h

theorem loop_fuel_mono (fuel : Nat) :
    ∀ (m : Map) (r : Bool × Map) (extra : Nat), loop fuel m = .ok r →
      loop (fuel + extra) m = .ok r := by
  induction fuel with
  | zero => intro m r extra h; simp [loop] at h
  | succ k ih =>
    intro m r extra h
    rw [Nat.add_right_comm]
    simp only [loop] at h ⊢
    cases hs : loopStep m with
    | done found m1 => simp only [hs] at h ⊢; exact h
    | next m1 => simp only [hs] at h ⊢; exact ih m1 r extra h
    | panic => simp [hs] at h

theorem Astar_terminates (m : Map) (h : m.WellFormed) :
    ∃ fuel found mf, m.Astar fuel = .ok (found, mf) := by
  obtain ⟨m1, h1, hI, hC⟩ := init_spec m h
  obtain ⟨fuel, found, mf, hf⟩ := loop_terminates m m1 hI hC
  exact ⟨fuel, found, mf, by simp [Map.Astar, h1, hf]⟩

theorem Astar_post (m : Map) (h : m.WellFormed) (fuel : Nat) (found : Bool) (mf : Map)
    (hr : m.Astar fuel = .ok (found, mf)) : Post m found mf := by
  obtain ⟨m1, h1, hI, hC⟩ := init_spec m h
  simp only [Map.Astar, h1] at hr
  exact loop_post m fuel m1 found mf hI hC hr

theorem Astar_deterministic (m : Map) (f1 f2 : Nat) (r1 r2 : Bool × Map)
    (h1 : m.Astar f1 = .ok r1) (h2 : m.Astar f2 = .ok r2) : r1 = r2 := by
  unfold Map.Astar at h1 h2
  cases hi : m.init with
  | none => simp [hi] at h1
  | some m0 =>
    simp only [hi] at h1 h2
    have a := loop_fuel_mono f1 m0 r1 f2 h1
    have b := loop_fuel_mono f2 m0 r2 f1 h2
    rw [Nat.add_comm] at b
    rw [a] at b
    cases b
    rfl

/-! ## Following the father links -/

theorem movedOf_eq {ns : List (List MapNodeProperty)} {p : Point} {n : MapNodeProperty}
    (h : nodeAt ns p = some n) : movedOf ns p = n.movedStep := by
  simp [movedOf, h]

theorem Inv.walked_free {m0 m : Map} (hI : Inv m0 m) {p : Point} (hw : m.Walked p) :
    m.Free p := by
  have hb := hI.walked_inBounds hw
  obtain ⟨n, hn, hnw⟩ := hw
  exact (free_iff_node m p).2 ⟨hb, n, hn, (hI.walkedOk p n hn hnw).1⟩

theorem pathFrom_ok (m0 m : Map) (hI : Inv m0 m) :
    ∀ (fuel : Nat) (p : Point) (route : List Point), m.Walked p →
      pathFrom m.Nodes fuel p = .ok route → RouteOk m p route := by
  intro fuel
  induction fuel with
  | zero => intro p route _ h; simp [pathFrom] at h
  | succ k ih =>
    intro p route hw h
    obtain ⟨n, hn, hnw⟩ := hw
    have hp := hI.pos p n hn
    obtain ⟨_, _, _, hfa⟩ := hI.walkedOk p n hn hnw
    simp only [pathFrom, hn] at h
    cases hf : n.father with
    | none =>
      simp only [hf, Res.ok.injEq] at h
      have hps : p = m.Start := by
        rcases hfa with e | ⟨f, _, e, _⟩
        · exact e
        · rw [hf] at e; cases e
      subst h
      rw [hp]
      refine ⟨rfl, by simp [hps], ?_, rfl, by simp⟩
      intro q hq
      simp only [List.mem_singleton] at hq
      subst hq
      exact ⟨⟨n, hn, hnw⟩, le_refl _⟩
    | some f =>
      simp only [hf] at h
      rcases hfa with e | ⟨f', nf, e1, e2, e3, e4, e5⟩
      · rw [e] at hn
        rw [(hI.startNode n hn).2.1] at hf
        cases hf
      · rw [hf] at e1
        cases e1
        cases hr : pathFrom m.Nodes k f with
        | outOfFuel => simp [hr] at h
        | panic => simp [hr] at h
        | ok rest =>
          simp only [hr, Res.ok.injEq] at h
          subst h
          rw [hp]
          have ihr := ih f rest ⟨nf, e2, e3⟩ hr
          have hlt : movedOf m.Nodes f < movedOf m.Nodes p := by
            rw [movedOf_eq e2, movedOf_eq hn]; exact e4
          cases rest with
          | nil => exact absurd ihr.head (by simp)
          | cons a t =>
            have ha : a = f := by
              have := ihr.head
              simpa using this
            subst ha
            refine ⟨rfl, ?_, ?_, ?_, ?_⟩
            · rw [List.getLast?_cons_cons]; exact ihr.last
            · intro q hq
              rcases List.mem_cons.1 hq with hq | hq
              · subst hq; exact ⟨⟨n, hn, hnw⟩, le_refl _⟩
              · have := ihr.walked q hq
                exact ⟨this.1, by omega⟩
            · simp only [stepsAdjacent, e5, decide_True, Bool.true_and]
              exact ihr.steps
            · rw [List.nodup_cons]
              refine ⟨?_, ihr.nodup⟩
              intro hq
              have := (ihr.walked p hq).2
              omega

theorem pathFrom_exists (m0 m : Map) (hI : Inv m0 m) :
    ∀ (k : Nat) (p : Point), m.Walked p → movedOf m.Nodes p ≤ k →
      ∃ route, pathFrom m.Nodes (k + 1) p = .ok route := by
  intro k
  induction k with
  | zero =>
    intro p hw hk
    obtain ⟨n, hn, hnw⟩ := hw
    obtain ⟨_, _, _, hfa⟩ := hI.walkedOk p n hn hnw
    rw [movedOf_eq hn] at hk
    rcases hfa with e | ⟨f, nf, e1, e2, e3, e4, e5⟩
    · rw [e] at hn
      refine ⟨[n.p], ?_⟩
      simp [pathFrom, e, hn, (hI.startNode n hn).2.1]
    · have := (hI.walkedOk f nf e2 e3).2.1
      omega
  | succ k ih =>
    intro p hw hk
    obtain ⟨n, hn, hnw⟩ := hw
    obtain ⟨_, _, _, hfa⟩ := hI.walkedOk p n hn hnw
    rw [movedOf_eq hn] at hk
    rcases hfa with e | ⟨f, nf, e1, e2, e3, e4, e5⟩
    · rw [e] at hn
      refine ⟨[n.p], ?_⟩
      simp [pathFrom, e, hn, (hI.startNode n hn).2.1]
    · obtain ⟨rest, hr⟩ := ih f ⟨nf, e2, e3⟩ (by rw [movedOf_eq e2]; omega)
      refine ⟨n.p :: rest, ?_⟩
      rw [pathFrom]
      simp only [hn, e1, hr]

theorem pathFrom_total (m0 m : Map) (hI : Inv m0 m) (p : Point) (hb : m.InBounds p) :
    ∃ fuel route, pathFrom m.Nodes fuel p = .ok route := by
  obtain ⟨n, hn⟩ := (hI.shape p).1 hb
  cases hw : n.walked with
  | true =>
    have h0 := (hI.walkedOk p n hn hw).2.1
    obtain ⟨route, hr⟩ := pathFrom_exists m0 m hI (movedOf m.Nodes p).toNat p ⟨n, hn, hw⟩
      (by rw [movedOf_eq hn]; omega)
    exact ⟨_, route, hr⟩
  | false =>
    exact ⟨1, [n.p], by simp [pathFrom, hn, hI.unwalkedOk p n hn hw]⟩

theorem pathFrom_unwalked (m0 m : Map) (hI : Inv m0 m) (p : Point) (hb : m.InBounds p)
    (hw : ¬ m.Walked p) :
    ∀ fuel route, pathFrom m.Nodes fuel p = .ok route → route = [p] := by
  obtain ⟨n, hn⟩ := (hI.shape p).1 hb
  have hnw : n.walked = false := by
    cases h : n.walked with
    | true => exact absurd ⟨n, hn, h⟩ hw
    | false => rfl
  intro fuel route h
  cases fuel with
  | zero => simp [pathFrom] at h
  | succ k =>
    simp only [pathFrom, hn, hI.unwalkedOk p n hn hnw, Res.ok.injEq] at h
    rw [← h, hI.pos p n hn]

theorem RouteOk.isWalk {m0 m : Map} (hI : Inv m0 m) {p : Point} {route : List Point}
    (h : RouteOk m p route) : m.IsWalk route :=
  ⟨fun q hq => hI.walked_free (h.walked q hq).1, h.steps⟩

/-! ## Reachability -/

theorem stepsAdjacent_concat :
    ∀ (l : List Point) (f p : Point), stepsAdjacent l = true → l.getLast? = some f →
      f.Distance p = 1 → stepsAdjacent (l ++ [p]) = true := by
  intro l
  induction l with
  | nil => intro f p _ h; simp at h
  | cons a t ih =>
    intro f p hs hl hd
    cases t with
    | nil =>
      simp only [List.getLast?_singleton, Option.some.injEq] at hl
      subst hl
      simp [stepsAdjacent, hd]
    | cons b t2 =>
      simp only [stepsAdjacent, Bool.and_eq_true, decide_eq_true_eq] at hs
      rw [List.getLast?_cons_cons] at hl
      have := ih f p hs.2 hl hd
      simp only [List.cons_append, stepsAdjacent, Bool.and_eq_true, decide_eq_true_eq]
      exact ⟨hs.1, this⟩

theorem stepsAdjacent_reverse :
    ∀ (l : List Point), stepsAdjacent l = true → stepsAdjacent l.reverse = true := by
  intro l
  induction l with
  | nil => intro _; rfl
  | cons a t ih =>
    intro hs
    cases t with
    | nil => rfl
    | cons b t2 =>
      simp only [stepsAdjacent, Bool.and_eq_true, decide_eq_true_eq] at hs
      rw [List.reverse_cons]
      refine stepsAdjacent_concat _ b a (ih hs.2) ?_ ?_
      · rw [List.getLast?_reverse]; rfl
      · rw [Distance_comm]; exact hs.1

theorem IsWalk_congr {m0 m : Map} (hI : Inv m0 m) (l : List Point) :
    m.IsWalk l ↔ m0.IsWalk l := by
  simp only [Map.IsWalk, hI.free_iff]

theorem walked_reachable (m0 m : Map) (hI : Inv m0 m) (p : Point) (hw : m.Walked p) :
    m0.Reachable m0.Start p := by
  obtain ⟨fuel, route, hr⟩ := pathFrom_total m0 m hI p (hI.walked_inBounds hw)
  have hok := pathFrom_ok m0 m hI fuel p route hw hr
  have hwalk := (IsWalk_congr hI route).1 (hok.isWalk hI)
  refine ⟨route.reverse, ⟨?_, stepsAdjacent_reverse route hwalk.2⟩, ?_, ?_⟩
  · intro q hq
    exact hwalk.1 q (List.mem_reverse.1 hq)
  · rw [List.head?_reverse, hok.last, hI.start]
  · rw [List.getLast?_reverse, hok.head]

theorem Inv.start_walked {m0 m : Map} (hI : Inv m0 m) : m.Walked m.Start := by
  have hb : m.InBounds m.Start := by
    rw [hI.inBounds_iff, hI.start]; exact hI.startFree.1
  obtain ⟨n, hn⟩ := (hI.shape m.Start).1 hb
  exact ⟨n, hn, (hI.startNode n hn).1⟩

theorem closed_walk (m0 m : Map) (hI : Inv m0 m) (hC : Closed m) (hq : m.OpenList = []) :
    ∀ (l : List Point) (a : Point), m0.IsWalk l → l.head? = some a → m.Walked a →
      ∀ q ∈ l, m.Walked q := by
  intro l
  induction l with
  | nil => intro a _ _ _ q hq'; exact absurd hq' (List.not_mem_nil q)
  | cons x t ih =>
    intro a hwalk hh ha q hq'
    simp only [List.head?_cons, Option.some.injEq] at hh
    subst hh
    rcases List.mem_cons.1 hq' with e | hqt
    · rw [e]; exact ha
    · cases t with
      | nil => exact absurd hqt (List.not_mem_nil q)
      | cons b t2 =>
        have hs := hwalk.2
        simp only [stepsAdjacent, Bool.and_eq_true, decide_eq_true_eq] at hs
        have hbf : m0.Free b := hwalk.1 b (by simp)
        have hbn : b ∈ m.Neighbor x :=
          (mem_Neighbor m x b (hI.walked_inBounds ha)).2
            ⟨hs.1, (hI.inBounds_iff b).2 hbf.1⟩
        have hbw : m.Walked b := by
          rcases hC.expanded x ha with h | h
          · rw [hq] at h; exact absurd h (List.not_mem_nil x)
          · exact h b hbn ((hI.free_iff b).2 hbf)
        refine ih b ⟨fun r hr => hwalk.1 r (List.mem_cons_of_mem _ hr), hs.2⟩ rfl hbw q hqt

theorem Astar_true_reachable (m : Map) (h : m.WellFormed) (fuel : Nat) (mf : Map)
    (hr : m.Astar fuel = .ok (true, mf)) : m.Reachable m.Start m.End := by
  have hp := Astar_post m h fuel true mf hr
  have := walked_reachable m mf hp.inv mf.End (hp.hit rfl)
  rw [hp.inv.finish] at this
  exact this

theorem Astar_false_unreachable (m : Map) (h : m.WellFormed) (fuel : Nat) (mf : Map)
    (hr : m.Astar fuel = .ok (false, mf)) : ¬ m.Reachable m.Start m.End := by
  have hp := Astar_post m h fuel false mf hr
  obtain ⟨hC, hq⟩ := hp.miss rfl
  rintro ⟨l, hwalk, hh, hl⟩
  have hall := closed_walk m mf hp.inv hC hq l m.Start hwalk hh
    (by have := hp.inv.start_walked; rw [hp.inv.start] at this; exact this)
  have he : mf.Walked mf.End := by
    rw [hp.inv.finish]
    exact hall m.End (List.mem_of_mem_getLast? hl)
  have := hC.finish he
  rw [hq] at this
  exact absurd this (List.not_mem_nil _)

/-! ## The states of a run -/

theorem iterate_inv (m0 : Map) :
    ∀ (k : Nat) (m mk : Map), Inv m0 m → Closed m → iterate m k = some mk →
      Inv m0 mk ∧ Closed mk := by
  intro k
  induction k with
  | zero =>
    intro m mk hI hC h
    simp only [iterate, Option.some.injEq] at h
    subst h
    exact ⟨hI, hC⟩
  | succ k ih =>
    intro m mk hI hC h
    rcases loopStep_spec m0 m hI hC with ⟨_, hs⟩ | ⟨pq, _, hs, _⟩ | ⟨m2, hs, hI2, hC2, _⟩
    · simp [iterate, hs] at h
    · simp [iterate, hs] at h
    · simp only [iterate, hs] at h
      exact ih m2 mk hI2 hC2 h

theorem headState_inv (m0 : Map) (h : m0.WellFormed) (k : Nat) (mk : Map)
    (hk : headState m0 k = some mk) : Inv m0 mk ∧ Closed mk := by
  obtain ⟨m1, h1, hI, hC⟩ := init_spec m0 h
  simp only [headState, h1] at hk
  exact iterate_inv m0 k m1 mk hI hC hk

theorem During_inv (m0 : Map) (h : m0.WellFormed) (m : Map) (hd : During m0 m) : Inv m0 m := by
  obtain ⟨k, mk, hk, hm⟩ := hd
  obtain ⟨hI, _⟩ := headState_inv m0 h k mk hk
  rcases hm with e | ⟨cur, pq, cn, pre, suf, hq, hpop, hcn, _, hnb, hrel⟩
  · rw [e]; exact hI
  · obtain ⟨cur', pq', hpop', _, hmem⟩ := heapPop_spec mk.Nodes mk.OpenList hq
    rw [hpop] at hpop'
    simp only [Option.some.injEq, Prod.mk.injEq] at hpop'
    obtain ⟨e1, e2⟩ := hpop'
    subst e1; subst e2
    have hcw : mk.Walked cur := hI.heapOk cur ((hmem cur).2 (Or.inl rfl))
    have hI1 : Inv m0 { mk with OpenList := pq } :=
      hI.popped pq (fun e he => (hmem e).2 (Or.inr he))
    have hcp := hI.pos cur cn hcn
    obtain ⟨m1, h1, hI2, _⟩ := relaxAll_spec m0 cur pre { mk with OpenList := pq } hI1 hcw (by
      intro q hq'
      rw [← hI.neighbor, ← hcp, hnb]
      exact List.mem_append_left _ hq')
    rw [hrel] at h1
    cases h1
    exact hI2

theorem loop_iterate :
    ∀ (fuel : Nat) (m : Map) (found : Bool) (mf : Map), loop fuel m = .ok (found, mf) →
      ∃ k mk, iterate m k = some mk ∧ loopStep mk = .done found mf := by
  intro fuel
  induction fuel with
  | zero => intro m found mf h; simp [loop] at h
  | succ n ih =>
    intro m found mf h
    simp only [loop] at h
    cases hs : loopStep m with
    | done b m1 =>
      simp only [hs, Res.ok.injEq, Prod.mk.injEq] at h
      exact ⟨0, m, rfl, by rw [hs, h.1, h.2]⟩
    | next m1 =>
      simp only [hs] at h
      obtain ⟨k, mk, h1, h2⟩ := ih m1 found mf h
      exact ⟨k + 1, mk, by simp only [iterate, hs, h1], h2⟩
    | panic => simp [hs] at h

theorem Astar_final_during (m0 : Map) (h : m0.WellFormed) (fuel : Nat) (found : Bool)
    (mf : Map) (hr : m0.Astar fuel = .ok (found, mf)) : During m0 mf := by
  obtain ⟨m1, h1, hI, hC⟩ := init_spec m0 h
  simp only [Map.Astar, h1] at hr
  obtain ⟨k, mk, hk, hs⟩ := loop_iterate fuel m1 found mf hr
  obtain ⟨hIk, hCk⟩ := iterate_inv m0 k m1 mk hI hC hk
  refine ⟨k, mk, by simp only [headState, h1, hk], ?_⟩
  rcases loopStep_spec m0 mk hIk hCk with ⟨hq, hs'⟩ | ⟨pq, hpop, hs', _, hw⟩ | ⟨m2, hs', _⟩
  · rw [hs'] at hs
    simp only [Step.done.injEq] at hs
    exact Or.inl hs.2.symm
  · rw [hs'] at hs
    simp only [Step.done.injEq] at hs
    obtain ⟨cn, hcn, _⟩ := hw
    right
    refine ⟨mk.End, pq, cn, [], mk.Neighbor cn.p, ?_, hpop, hcn, Or.inl rfl, rfl, ?_⟩
    · intro e; rw [e] at hpop; simp [heapPop] at hpop
    · rw [← hs.2]; rfl
  · rw [hs'] at hs
    cases hs

/-! ## Route validity, failure and termination -/

theorem relaxOne_update (m0 m : Map) (hI : Inv m0 m) (cur point : Point) (m2 : Map)
    (dn dn' : MapNodeProperty) (hc : m.Walked cur) (hr : relaxOne m cur point = some m2)
    (hdn : nodeAt m.Nodes point = some dn) (hw : dn.walked = true)
    (hdn' : nodeAt m2.Nodes point = some dn') (hne : dn' ≠ dn) :
    0 ≤ dn'.movedStep ∧ dn'.movedStep < dn.movedStep ∧
      0 ≤ dn'.totalStep ∧ dn'.totalStep < dn.totalStep := by
  obtain ⟨cn, hcn, hcw⟩ := hc
  have hcur := (hI.walkedOk cur cn hcn hcw).2.1
  have hd := (hI.walkedOk point dn hdn hw).2.2.1
  have hdp := hI.pos point dn hdn
  have h5 := Distance_nonneg point m.End
  unfold relaxOne at hr
  simp only [hdn, hcn] at hr
  by_cases hblk : dn.Attr = AttrBlock
  · rw [if_pos hblk] at hr
    cases hr
    rw [hdn] at hdn'
    cases hdn'
    exact absurd rfl hne
  rw [if_neg hblk] at hr
  by_cases hcond : dn.walked = false ∨ dn.totalStep > cn.movedStep + 1 + dn.p.Distance m.End
  swap
  · rw [if_neg hcond] at hr
    cases hr
    rw [hdn] at hdn'
    cases hdn'
    exact absurd rfl hne
  rw [if_pos hcond] at hr
  cases hr
  simp only at hdn'
  rw [nodeAt_setNode_self _ _ _ dn hdn] at hdn'
  cases hdn'
  simp only
  rcases hcond with h | h
  · rw [hw] at h; cases h
  · rw [hdp] at h ⊢
    refine ⟨by omega, by omega, by omega, by omega⟩

theorem pathFrom_last_nil (m0 m : Map) (hI : Inv m0 m) :
    ∀ (fuel : Nat) (p : Point) (route : List Point), pathFrom m.Nodes fuel p = .ok route →
      ∀ z n, route.getLast? = some z → nodeAt m.Nodes z = some n → n.father = none := by
  intro fuel
  induction fuel with
  | zero => intro p route h; simp [pathFrom] at h
  | succ k ih =>
    intro p route h z n hz hn
    simp only [pathFrom] at h
    cases hp : nodeAt m.Nodes p with
    | none => simp [hp] at h
    | some pn =>
      simp only [hp] at h
      cases hf : pn.father with
      | none =>
        simp only [hf, Res.ok.injEq] at h
        subst h
        simp only [List.getLast?_singleton, Option.some.injEq] at hz
        rw [hI.pos p pn hp] at hz
        subst hz
        rw [hp] at hn
        cases hn
        exact hf
      | some f =>
        simp only [hf] at h
        cases hr : pathFrom m.Nodes k f with
        | outOfFuel => simp [hr] at h
        | panic => simp [hr] at h
        | ok rest =>
          simp only [hr, Res.ok.injEq] at h
          subst h
          cases rest with
          | nil =>
            cases k with
            | zero => simp [pathFrom] at hr
            | succ j =>
              simp only [pathFrom] at hr
              split at hr
              · cases hr
              · split at hr
                · cases hr
                · split at hr <;> cases hr
          | cons a t =>
            rw [List.getLast?_cons_cons] at hz
            exact ih f (a :: t) hr z n hz hn

/-- C2: if `Astar` returns true on a well-formed fresh map, following the `father` links
from `End` (as `PrintPath` does) ends and yields a route that starts at `End`, in which every
consecutive pair of coordinates is at Manhattan distance exactly 1 and every coordinate is
inside the grid and not blocked. -/
theorem C2_route_valid (m : Map) (h : m.WellFormed) (fuel : Nat) (mf : Map)
    (hr : m.Astar fuel = .ok (true, mf)) :
    (∃ k route, mf.PrintPath k = .ok route) ∧
    ∀ k route, mf.PrintPath k = .ok route →
      route.head? = some m.End ∧ stepsAdjacent route = true ∧
      ∀ q ∈ route, m.InBounds q ∧ mf.InBounds q ∧
        ∃ n, nodeAt mf.Nodes q = some n ∧ n.Attr ≠ AttrBlock := by
  have hp := Astar_post m h fuel true mf hr
  have hw := hp.hit rfl
  constructor
  · exact pathFrom_total m mf hp.inv mf.End (hp.inv.walked_inBounds hw)
  · intro k route hk
    have hok := pathFrom_ok m mf hp.inv k mf.End route hw hk
    refine ⟨by rw [hok.head, hp.inv.finish], hok.steps, ?_⟩
    intro q hq
    have hf := hp.inv.walked_free (hok.walked q hq).1
    obtain ⟨hb, n, hn, ha⟩ := (free_iff_node mf q).1 hf
    exact ⟨(hp.inv.inBounds_iff q).1 hb, hb, n, hn, ha⟩

set_option maxRecDepth 100000 in
/-- Witness for C2 on the 3 by 3 grid without blocked cells. -/
theorem C2_route_valid_witness :
    openMap.WellFormed ∧ openMap.Astar 20 = .ok (true, openMap.afterAstar 20) ∧
    ∀ k route, (openMap.afterAstar 20).PrintPath k = .ok route →
      route.head? = some openMap.End ∧ stepsAdjacent route = true ∧
      ∀ q ∈ route, openMap.InBounds q ∧ (openMap.afterAstar 20).InBounds q ∧
        ∃ n, nodeAt (openMap.afterAstar 20).Nodes q = some n ∧ n.Attr ≠ AttrBlock :=
  ⟨by decide, by decide,
    (C2_route_valid openMap (by decide) 20 (openMap.afterAstar 20) (by decide)).2⟩

/-- C3: on a well-formed fresh map in which `End` cannot be reached from `Start` by orthogonal
steps through cells that are not blocked, `Astar` ends and returns false. -/
theorem C3_unreachable_false (m : Map) (h : m.WellFormed)
    (hu : ¬ m.Reachable m.Start m.End) :
    (∃ fuel mf, m.Astar fuel = .ok (false, mf)) ∧
    ∀ fuel found mf, m.Astar fuel = .ok (found, mf) → found = false := by
  have hall : ∀ fuel found mf, m.Astar fuel = .ok (found, mf) → found = false := by
    intro fuel found mf hr
    cases found with
    | false => rfl
    | true => exact absurd (Astar_true_reachable m h fuel mf hr) hu
  obtain ⟨fuel, found, mf, hr⟩ := Astar_terminates m h
  have := hall fuel found mf hr
  subst this
  exact ⟨⟨fuel, mf, hr⟩, hall⟩

set_option maxRecDepth 100000 in
/-- Witness for C3 on the 3 by 1 grid whose middle cell is blocked. -/
theorem C3_unreachable_false_witness :
    wallMap.WellFormed ∧ ¬ wallMap.Reachable wallMap.Start wallMap.End ∧
    (∃ fuel mf, wallMap.Astar fuel = .ok (false, mf)) ∧
    wallMap.Astar 5 = .ok (false, wallMap.afterAstar 5) :=
  ⟨by decide,
    Astar_false_unreachable wallMap (by decide) 5 (wallMap.afterAstar 5) (by decide),
    (C3_unreachable_false wallMap (by decide)
      (Astar_false_unreachable wallMap (by decide) 5 (wallMap.afterAstar 5) (by decide))).1,
    by decide⟩

/-- C4: on a well-formed fresh map `Astar` returns false only when `End` cannot be reached
from `Start`; whenever `End` can be reached by orthogonal steps through cells that are not
blocked, `Astar` ends and returns true. -/
theorem C4_false_only_if_unreachable (m : Map) (h : m.WellFormed) :
    (∀ fuel mf, m.Astar fuel = .ok (false, mf) → ¬ m.Reachable m.Start m.End) ∧
    (m.Reachable m.Start m.End →
      (∃ fuel mf, m.Astar fuel = .ok (true, mf)) ∧
      ∀ fuel found mf, m.Astar fuel = .ok (found, mf) → found = true) := by
  refine ⟨fun fuel mf hr => Astar_false_unreachable m h fuel mf hr, ?_⟩
  intro hreach
  have hall : ∀ fuel found mf, m.Astar fuel = .ok (found, mf) → found = true := by
    intro fuel found mf hr
    cases found with
    | true => rfl
    | false => exact absurd hreach (Astar_false_unreachable m h fuel mf hr)
  obtain ⟨fuel, found, mf, hr⟩ := Astar_terminates m h
  have := hall fuel found mf hr
  subst this
  exact ⟨⟨fuel, mf, hr⟩, hall⟩

set_option maxRecDepth 100000 in
/-- Witness for C4 on the 3 by 3 grid without blocked cells. -/
theorem C4_false_only_if_unreachable_witness :
    openMap.WellFormed ∧ openMap.Reachable openMap.Start openMap.End ∧
    ∃ fuel mf, openMap.Astar fuel = .ok (true, mf) :=
  have hreach : openMap.Reachable openMap.Start openMap.End :=
    ⟨[⟨0, 0⟩, ⟨1, 0⟩, ⟨2, 0⟩, ⟨2, 1⟩, ⟨2, 2⟩], by decide, by decide, by decide⟩
  ⟨by decide, hreach, ((C4_false_only_if_unreachable openMap (by decide)).2 hreach).1⟩

/-- C6: in every state the map passes through during or after `Astar` on a well-formed fresh
map (the state in which `Astar` returns true is one of them, and `End` is walked there), the
`Start` cell has `father = nil`, and from every cell of the grid following `father` ends after
finitely many steps without visiting a cell twice, at a cell whose `father` is nil; from a
walked cell that last cell is `Start`. -/
theorem C6_father_chain (m0 : Map) (h : m0.WellFormed) :
    (∀ fuel mf, m0.Astar fuel = .ok (true, mf) → During m0 mf ∧ mf.Walked mf.End) ∧
    ∀ m, During m0 m →
      (∀ n, nodeAt m.Nodes m.Start = some n → n.father = none) ∧
      ∀ p, m.InBounds p →
        (∃ fuel route, pathFrom m.Nodes fuel p = .ok route) ∧
        ∀ fuel route, pathFrom m.Nodes fuel p = .ok route →
          route.head? = some p ∧ route.Nodup ∧
          (∀ z n, route.getLast? = some z → nodeAt m.Nodes z = some n → n.father = none) ∧
          (m.Walked p → route.getLast? = some m.Start) := by
  constructor
  · intro fuel mf hr
    exact ⟨Astar_final_during m0 h fuel true mf hr, (Astar_post m0 h fuel true mf hr).hit rfl⟩
  · intro m hd
    have hI := During_inv m0 h m hd
    refine ⟨fun n hn => (hI.startNode n hn).2.1, ?_⟩
    intro p hb
    refine ⟨pathFrom_total m0 m hI p hb, ?_⟩
    intro fuel route hr
    have hlast := pathFrom_last_nil m0 m hI fuel p route hr
    by_cases hw : m.Walked p
    · have hok := pathFrom_ok m0 m hI fuel p route hw hr
      exact ⟨hok.head, hok.nodup, hlast, fun _ => hok.last⟩
    · have e := pathFrom_unwalked m0 m hI p hb hw fuel route hr
      subst e
      exact ⟨rfl, by simp, hlast, fun h' => absurd h' hw⟩

set_option maxRecDepth 100000 in
/-- Witness for C6 on the 3 by 3 grid without blocked cells. -/
theorem C6_father_chain_witness :
    openMap.WellFormed ∧ openMap.Astar 20 = .ok (true, openMap.afterAstar 20) ∧
    During openMap (openMap.afterAstar 20) ∧ (openMap.afterAstar 20).Walked openMap.End :=
  ⟨by decide, by decide,
    (C6_father_chain openMap (by decide)).1 20 (openMap.afterAstar 20) (by decide)⟩

/-- C7: on every well-formed fresh map the loop of `Astar` ends, and in every state of the run
an update of an already walked cell strictly lowers its `movedStep` and its `totalStep`, both
of which stay at least 0. -/
theorem C7_termination (m0 : Map) (h : m0.WellFormed) :
    (∃ fuel found mf, m0.Astar fuel = .ok (found, mf)) ∧
    ∀ m, During m0 m → ∀ cur point m2 dn dn', m.Walked cur →
      relaxOne m cur point = some m2 → nodeAt m.Nodes point = some dn → dn.walked = true →
      nodeAt m2.Nodes point = some dn' → dn' ≠ dn →
      0 ≤ dn'.movedStep ∧ dn'.movedStep < dn.movedStep ∧
        0 ≤ dn'.totalStep ∧ dn'.totalStep < dn.totalStep :=
  ⟨Astar_terminates m0 h, fun m hd cur point m2 dn dn' hc hr hdn hw hdn' hne =>
    relaxOne_update m0 m (During_inv m0 h m hd) cur point m2 dn dn' hc hr hdn hw hdn' hne⟩

set_option maxRecDepth 100000 in
/-- Witness for C7 on the 9 by 5 grid `detourMap`. -/
theorem C7_termination_witness :
    detourMap.WellFormed ∧ ∃ fuel found mf, detourMap.Astar fuel = .ok (found, mf) :=
  ⟨by decide, (C7_termination detourMap (by decide)).1⟩

/-! ## A second run on the same grid -/

theorem OptSim_some_left {x : MapNodeProperty} {o : Option MapNodeProperty}
    (h : OptSim (some x) o) : ∃ y, o = some y ∧ NodeSim x y := by
  cases o with
  | none => exact absurd h (by simp [OptSim])
  | some y => exact ⟨y, rfl, h⟩

theorem OptSim_none_left {o : Option MapNodeProperty} (h : OptSim none o) : o = none := by
  cases o with
  | none => rfl
  | some y => exact absurd h (by simp [OptSim])

theorem keyOf_sim (na nb : List (List MapNodeProperty)) (e : Point)
    (hg : OptSim (nodeAt na e) (nodeAt nb e))
    (hw : ∀ n, nodeAt na e = some n → n.walked = true) : keyOf na e = keyOf nb e := by
  unfold keyOf
  cases ha : nodeAt na e with
  | none =>
    rw [ha] at hg
    rw [OptSim_none_left hg]
  | some x =>
    rw [ha] at hg
    obtain ⟨y, hy, hs⟩ := OptSim_some_left hg
    rw [hy]
    exact (hs.2.2.2 (hw x ha)).2.2

theorem Less_congr (na nb : List (List MapNodeProperty)) (pq : PriorityQueue)
    (hk : ∀ e ∈ pq, keyOf na e = keyOf nb e) (i j : Nat) : Less na pq i j = Less nb pq i j := by
  unfold Less
  cases hi : pq[i]? with
  | none => rfl
  | some a =>
    cases hj : pq[j]? with
    | none => rfl
    | some b =>
      simp only
      rw [hk a (List.mem_iff_getElem?.2 ⟨i, hi⟩), hk b (List.mem_iff_getElem?.2 ⟨j, hj⟩)]

theorem up_congr (na nb : List (List MapNodeProperty)) (fuel : Nat) :
    ∀ (pq : PriorityQueue) (j : Nat), (∀ e ∈ pq, keyOf na e = keyOf nb e) →
      up na fuel pq j = up nb fuel pq j := by
  induction fuel with
  | zero => intro pq j _; rfl
  | succ n ih =>
    intro pq j hk
    simp only [up, Less_congr na nb pq hk]
    split
    · rfl
    · exact ih _ _ (fun e he => hk e ((mem_Swap _ _ _ _).1 he))

theorem down_congr (na nb : List (List MapNodeProperty)) (fuel : Nat) :
    ∀ (pq : PriorityQueue) (i n : Nat), (∀ e ∈ pq, keyOf na e = keyOf nb e) →
      down na fuel pq i n = down nb fuel pq i n := by
  induction fuel with
  | zero => intro pq i n _; rfl
  | succ k ih =>
    intro pq i n hk
    simp only [down, Less_congr na nb pq hk]
    split_ifs <;> first | rfl | exact ih _ _ _ (fun e he => hk e ((mem_Swap _ _ _ _).1 he))

theorem heapPush_congr (na nb : List (List MapNodeProperty)) (pq : PriorityQueue) (x : Point)
    (hk : ∀ e ∈ pq, keyOf na e = keyOf nb e) (hx : keyOf na x = keyOf nb x) :
    heapPush na pq x = heapPush nb pq x := by
  unfold heapPush
  apply up_congr
  intro e he
  rcases List.mem_append.1 he with h | h
  · exact hk e h
  · rw [List.mem_singleton.1 h]; exact hx

theorem heapPop_congr (na nb : List (List MapNodeProperty)) (pq : PriorityQueue)
    (hk : ∀ e ∈ pq, keyOf na e = keyOf nb e) : heapPop na pq = heapPop nb pq := by
  cases pq with
  | nil => rfl
  | cons a t =>
    simp only [heapPop]
    rw [down_congr na nb _ _ _ _ (fun e he => hk e ((mem_Swap _ _ _ _).1 he))]

theorem Sim.keys {a b : Map} (h : Sim a b) : ∀ e ∈ a.OpenList,
    keyOf a.Nodes e = keyOf b.Nodes e :=
  fun e he => keyOf_sim a.Nodes b.Nodes e (h.grid e) (h.heapWalked e he)

theorem relaxOne_sim (a b : Map) (cur point : Point) (h : Sim a b)
    (hc : ∀ n, nodeAt a.Nodes cur = some n → n.walked = true) (a1 : Map)
    (hr : relaxOne a cur point = some a1) :
    ∃ b1, relaxOne b cur point = some b1 ∧ Sim a1 b1 ∧
      ∀ n, nodeAt a1.Nodes cur = some n → n.walked = true := by
  unfold relaxOne at hr ⊢
  cases hda : nodeAt a.Nodes point with
  | none => simp [hda] at hr
  | some da =>
    cases hca : nodeAt a.Nodes cur with
    | none => simp [hda, hca] at hr
    | some ca =>
      have gd := h.grid point
      have gc := h.grid cur
      rw [hda] at gd
      rw [hca] at gc
      obtain ⟨db, hdb, sd⟩ := OptSim_some_left gd
      obtain ⟨cb, hcb, sc⟩ := OptSim_some_left gc
      obtain ⟨sd1, sd2, sd3, sd4⟩ := sd
      obtain ⟨sc1, sc2, sc3, sc4⟩ := sc
      obtain ⟨_, scm, _⟩ := sc4 (hc ca hca)
      have hfin := h.finish
      simp only [hda, hca] at hr
      simp only [hdb, hcb]
      by_cases hblk : da.Attr = AttrBlock
      · rw [if_pos hblk] at hr
        rw [if_pos (by rw [← sd1]; exact hblk)]
        cases hr
        exact ⟨b, rfl, h, hc⟩
      rw [if_neg hblk] at hr
      rw [if_neg (by rw [← sd1]; exact hblk)]
      have hcondiff : (da.walked = false ∨ da.totalStep > ca.movedStep + 1 + da.p.Distance a.End) ↔
          (db.walked = false ∨ db.totalStep > cb.movedStep + 1 + db.p.Distance b.End) := by
        rw [← sd2, ← sd3, ← scm, ← hfin]
        cases hw : da.walked with
        | false => simp
        | true => rw [(sd4 hw).2.2]
      by_cases hcond : da.walked = false ∨
          da.totalStep > ca.movedStep + 1 + da.p.Distance a.End
      swap
      · rw [if_neg hcond] at hr
        rw [if_neg (fun hh => hcond (hcondiff.2 hh))]
        cases hr
        exact ⟨b, rfl, h, hc⟩
      rw [if_pos hcond] at hr
      rw [if_pos (hcondiff.1 hcond)]
      generalize hna : ({ da with
            father := some ca.p
            movedStep := ca.movedStep + 1
            toMoveStep := da.p.Distance a.End
            totalStep := ca.movedStep + 1 + da.p.Distance a.End
            walked := true } : MapNodeProperty) = na' at hr
      generalize hnb : ({ db with
            father := some cb.p
            movedStep := cb.movedStep + 1
            toMoveStep := db.p.Distance b.End
            totalStep := cb.movedStep + 1 + db.p.Distance b.End
            walked := true } : MapNodeProperty) = nb'
      have hsim : NodeSim na' nb' := by
        rw [← hna, ← hnb]
        refine ⟨sd1, sd2, rfl, fun _ => ⟨?_, ?_, ?_⟩⟩
        · show some ca.p = some cb.p
          rw [sc2]
        · show ca.movedStep + 1 = cb.movedStep + 1
          rw [scm]
        · show ca.movedStep + 1 + da.p.Distance a.End = cb.movedStep + 1 + db.p.Distance b.End
          rw [scm, sd2, hfin]
      have hnaw : na'.walked = true := by rw [← hna]
      cases hr
      have hgrid : ∀ q, OptSim (nodeAt (setNode a.Nodes point na') q)
          (nodeAt (setNode b.Nodes point nb') q) := by
        intro q
        rw [nodeAt_setNode, nodeAt_setNode]
        by_cases hq : q = point
        · simp only [hq, if_true, hda, hdb, Option.map_some']
          exact hsim
        · simp only [hq, if_false]
          exact h.grid q
      have hwalk : ∀ e, (e ∈ a.OpenList ∨ e = point ∨ e = cur) → ∀ n,
          nodeAt (setNode a.Nodes point na') e = some n → n.walked = true := by
        intro e he n hn
        rw [nodeAt_setNode] at hn
        by_cases hq : e = point
        · simp only [hq, if_true, hda, Option.map_some', Option.some.injEq] at hn
          rw [← hn]; exact hnaw
        · simp only [hq, if_false] at hn
          rcases he with he | he | he
          · exact h.heapWalked e he n hn
          · exact absurd he hq
          · rw [he] at hn; exact hc n hn
      refine ⟨_, rfl, ?_, fun n hn => hwalk cur (Or.inr (Or.inr rfl)) n hn⟩
      constructor
      · exact h.width
      · exact h.height
      · exact h.start
      · exact h.finish
      · show heapPush _ a.OpenList point = heapPush _ b.OpenList point
        rw [← h.queue]
        apply heapPush_congr
        · intro e he
          exact keyOf_sim _ _ e (hgrid e) (hwalk e (Or.inl he))
        · exact keyOf_sim _ _ point (hgrid point) (hwalk point (Or.inr (Or.inl rfl)))
      · exact hgrid
      · intro e he
        rcases (mem_heapPush _ _ _ _).1 he with he | he
        · exact hwalk e (Or.inl he)
        · exact hwalk e (Or.inr (Or.inl he))

theorem relaxAll_sim (cur : Point) :
    ∀ (l : List Point) (a b : Map), Sim a b →
      (∀ n, nodeAt a.Nodes cur = some n → n.walked = true) → ∀ a1,
      relaxAll a cur l = some a1 → ∃ b1, relaxAll b cur l = some b1 ∧ Sim a1 b1 := by
  intro l
  induction l with
  | nil =>
    intro a b h _ a1 hr
    simp only [relaxAll, Option.some.injEq] at hr
    subst hr
    exact ⟨b, rfl, h⟩
  | cons point rest ih =>
    intro a b h hc a1 hr
    simp only [relaxAll] at hr
    cases h1 : relaxOne a cur point with
    | none => simp [h1] at hr
    | some a2 =>
      simp only [h1] at hr
      obtain ⟨b2, hb2, hs2, hc2⟩ := relaxOne_sim a b cur point h hc a2 h1
      obtain ⟨b1, hb1, hs1⟩ := ih a2 b2 hs2 hc2 a1 hr
      exact ⟨b1, by simp only [relaxAll, hb2, hb1], hs1⟩

theorem Sim.dropEntries {a b : Map} (h : Sim a b) (pq : PriorityQueue)
    (hsub : ∀ e ∈ pq, e ∈ a.OpenList) :
    Sim { a with OpenList := pq } { b with OpenList := pq } :=
  { width := h.width, height := h.height, start := h.start, finish := h.finish,
    queue := rfl, grid := h.grid,
    heapWalked := fun e he => h.heapWalked e (hsub e he) }

theorem loopStep_sim (a b : Map) (h : Sim a b) :
    (∀ f a1, loopStep a = .done f a1 → ∃ b1, loopStep b = .done f b1 ∧ Sim a1 b1) ∧
    (∀ a1, loopStep a = .next a1 → ∃ b1, loopStep b = .next b1 ∧ Sim a1 b1) := by
  unfold loopStep
  rw [← h.queue]
  by_cases hq : a.OpenList.length = 0
  · simp only [hq, if_true]
    constructor
    · intro f a1 e
      simp only [Step.done.injEq] at e
      exact ⟨b, by rw [e.1], by rw [← e.2]; exact h⟩
    · intro a1 e
      cases e
  simp only [hq, if_false]
  have hne : a.OpenList ≠ [] := fun e => hq (by rw [e]; rfl)
  rw [← heapPop_congr a.Nodes b.Nodes a.OpenList h.keys]
  obtain ⟨cur, pq, hpop, _, hmem⟩ := heapPop_spec a.Nodes a.OpenList hne
  simp only [hpop]
  have hcw := h.heapWalked cur ((hmem cur).2 (Or.inl rfl))
  have hs1 : Sim { a with OpenList := pq } { b with OpenList := pq } :=
    h.dropEntries pq (fun e he => (hmem e).2 (Or.inr he))
  cases hca : nodeAt a.Nodes cur with
  | none =>
    simp only
    constructor
    · intro f a1 e; cases e
    · intro a1 e; cases e
  | some ca =>
    have gc := h.grid cur
    rw [hca] at gc
    obtain ⟨cb, hcb, sc⟩ := OptSim_some_left gc
    simp only [hcb]
    have hEq : cb.p.Equal b.End = ca.p.Equal a.End := by rw [← sc.2.1, ← h.finish]
    rw [hEq]
    by_cases he : ca.p.Equal a.End = true
    · simp only [he, if_true]
      constructor
      · intro f a1 e
        simp only [Step.done.injEq] at e
        exact ⟨{ b with OpenList := pq }, by rw [e.1], by rw [← e.2]; exact hs1⟩
      · intro a1 e
        cases e
    · have he' : ca.p.Equal a.End = false := by
        cases hh : ca.p.Equal a.End with
        | true => exact absurd hh he
        | false => rfl
      simp only [he', Bool.false_eq_true, if_false]
      have hnb : Map.Neighbor { b with OpenList := pq } cb.p =
          Map.Neighbor { a with OpenList := pq } ca.p := by
        rw [← sc.2.1]
        exact Neighbor_congr _ _ h.width.symm h.height.symm ca.p
      rw [hnb]
      constructor
      · intro f a1 e
        split at e <;> cases e
      · intro a1 e
        cases hr : relaxAll { a with OpenList := pq } cur
            (Map.Neighbor { a with OpenList := pq } ca.p) with
        | none => simp [hr] at e
        | some a2 =>
          simp only [hr, Step.next.injEq] at e
          subst e
          obtain ⟨b1, hb1, hs⟩ := relaxAll_sim cur _ _ _ hs1 hcw a2 hr
          exact ⟨b1, by simp only [hb1], hs⟩

theorem loop_sim :
    ∀ (fuel : Nat) (a b : Map), Sim a b → ∀ f a1, loop fuel a = .ok (f, a1) →
      ∃ b1, loop fuel b = .ok (f, b1) ∧ Sim a1 b1 := by
  intro fuel
  induction fuel with
  | zero => intro a b _ f a1 h; simp [loop] at h
  | succ n ih =>
    intro a b hs f a1 h
    obtain ⟨hd, hn⟩ := loopStep_sim a b hs
    simp only [loop] at h ⊢
    cases hst : loopStep a with
    | done f' a2 =>
      simp only [hst, Res.ok.injEq, Prod.mk.injEq] at h
      obtain ⟨b1, hb1, hs1⟩ := hd f' a2 hst
      rw [hb1]
      exact ⟨b1, by rw [h.1], by rw [← h.2]; exact hs1⟩
    | next a2 =>
      simp only [hst] at h
      obtain ⟨b2, hb2, hs2⟩ := hn a2 hst
      rw [hb2]
      exact ih a2 b2 hs2 f a1 h
    | panic => simp [hst] at h

theorem nodeAt_clearWalked (m : Map) (p : Point) :
    nodeAt m.clearWalked.Nodes p =
      (nodeAt m.Nodes p).map (fun n => { n with walked := false }) := by
  unfold Map.clearWalked nodeAt
  by_cases hp : 0 ≤ p.Y ∧ 0 ≤ p.X
  · simp only [hp, and_self, if_true, List.getElem?_map]
    cases m.Nodes[p.Y.toNat]? with
    | none => rfl
    | some row => simp [List.getElem?_map]
  · simp [hp]

theorem init_sim (m m1 : Map) (h : m.WellFormed) (hI : Inv m m1) (a0 : Map)
    (ha : m.init = some a0) : ∃ b0, m1.clearWalked.init = some b0 ∧ Sim a0 b0 := by
  have hsf := h.2.2.2.2.1
  obtain ⟨sn, hsn⟩ := (h.shape m.Start).1 hsf.1
  obtain ⟨sn1, hsn1⟩ := (hI.shape m.Start).1 ((hI.inBounds_iff _).2 hsf.1)
  have hst : m1.clearWalked.Start = m.Start := hI.start
  have hfi : m1.clearWalked.End = m.End := hI.finish
  have hpre : ∀ p, OptSim (nodeAt m.Nodes p) (nodeAt m1.clearWalked.Nodes p) ∧
      ∀ n, nodeAt m.Nodes p = some n → n.walked = false := by
    intro p
    rw [nodeAt_clearWalked]
    cases hp : nodeAt m.Nodes p with
    | none =>
      cases hp1 : nodeAt m1.Nodes p with
      | none => exact ⟨trivial, fun n hn => by cases hn⟩
      | some y =>
        have := (h.shape p).1 ((hI.inBounds_iff p).1 ((hI.shape p).2 ⟨y, hp1⟩))
        rw [hp] at this
        obtain ⟨_, e⟩ := this
        cases e
    | some x =>
      obtain ⟨y, hp1⟩ := (hI.shape p).1 ((hI.inBounds_iff p).2 ((h.shape p).2 ⟨x, hp⟩))
      have hattr := hI.attr p
      rw [hp, hp1] at hattr
      simp only [Option.map_some', Option.some.injEq] at hattr
      obtain ⟨c1, c2, _⟩ := h.cell p x hp
      rw [hp1]
      refine ⟨⟨hattr.symm, ?_, ?_, ?_⟩, fun n hn => ?_⟩
      · show x.p = y.p
        rw [c1, hI.pos p y hp1]
      · show x.walked = false
        exact c2
      · intro hw
        rw [c2] at hw
        cases hw
      · cases hn
        exact c2
  unfold Map.init at ha ⊢
  rw [hst, hfi, nodeAt_clearWalked, hsn1]
  simp only [hsn, Option.some.injEq, Option.map_some', heapPush_nil] at ha ⊢
  subst ha
  refine ⟨_, rfl, ?_⟩
  have hgrid : ∀ q, OptSim
      (nodeAt (setNode m.Nodes m.Start { sn with
        movedStep := 0
        toMoveStep := m.Start.Distance m.End
        totalStep := 0 + m.Start.Distance m.End
        walked := true }) q)
      (nodeAt (setNode m1.clearWalked.Nodes m.Start { sn1 with
        walked := true
        movedStep := 0
        toMoveStep := m.Start.Distance m.End
        totalStep := 0 + m.Start.Distance m.End }) q) := by
    intro q
    rw [nodeAt_setNode, nodeAt_setNode]
    by_cases hq : q = m.Start
    · simp only [hq, if_true, hsn, nodeAt_clearWalked, hsn1, Option.map_some']
      have hattr := hI.attr m.Start
      rw [hsn1, hsn] at hattr
      simp only [Option.map_some', Option.some.injEq] at hattr
      refine ⟨hattr.symm, ?_, rfl, fun _ => ⟨?_, rfl, rfl⟩⟩
      · show sn.p = sn1.p
        rw [(h.cell m.Start sn hsn).1, hI.pos m.Start sn1 hsn1]
      · show sn.father = sn1.father
        have hs1 : nodeAt m1.Nodes m1.Start = some sn1 := by rw [hI.start]; exact hsn1
        rw [(h.cell m.Start sn hsn).2.2, (hI.startNode sn1 hs1).2.1]
    · simp only [hq, if_false]
      exact (hpre q).1
  constructor
  · exact hI.width.symm
  · exact hI.height.symm
  · rfl
  · rfl
  · rfl
  · exact hgrid
  · intro e he n hn
    simp only [List.mem_singleton] at he
    subst he
    simp only at hn
    rw [nodeAt_setNode, if_pos rfl, hsn] at hn
    simp only [Option.map_some', Option.some.injEq] at hn
    rw [← hn]

theorem pathFrom_sim (m0 a b : Map) (hI : Inv m0 a) (hs : Sim a b) :
    ∀ (fuel : Nat) (p : Point), a.Walked p →
      pathFrom b.Nodes fuel p = pathFrom a.Nodes fuel p := by
  intro fuel
  induction fuel with
  | zero => intro p _; rfl
  | succ k ih =>
    intro p hw
    obtain ⟨n, hn, hnw⟩ := hw
    have g := hs.grid p
    rw [hn] at g
    obtain ⟨n', hn', sn⟩ := OptSim_some_left g
    obtain ⟨_, sp, _, sw⟩ := sn
    obtain ⟨sf, _, _⟩ := sw hnw
    simp only [pathFrom, hn, hn', ← sf, ← sp]
    cases hf : n.father with
    | none => rfl
    | some f =>
      simp only
      obtain ⟨_, _, _, hfa⟩ := hI.walkedOk p n hn hnw
      rcases hfa with e | ⟨f', nf, e1, e2, e3, _⟩
      · rw [e] at hn
        rw [(hI.startNode n hn).2.1] at hf
        cases hf
      · rw [hf] at e1
        cases e1
        rw [ih f ⟨nf, e2, e3⟩]

/-- C8 (amended): when the `walked` flag of every cell is set back to false after a call of
`Astar` on a well-formed fresh map, a second call returns the same result as the first and,
when a route was found, leaves the same route from `End`; the values of `father`,
`movedStep`, `toMoveStep`, `totalStep` and `OpenList` left by the first call do not influence
the second call. -/
theorem C8_second_call_after_reset (m : Map) (h : m.WellFormed) (fuel : Nat) (found : Bool)
    (m1 : Map) (hr : m.Astar fuel = .ok (found, m1)) :
    ∃ m2, m1.clearWalked.Astar fuel = .ok (found, m2) ∧
      (found = true → ∀ k, m2.PrintPath k = m1.PrintPath k) := by
  have hp := Astar_post m h fuel found m1 hr
  unfold Map.Astar at hr ⊢
  cases ha : m.init with
  | none => simp [ha] at hr
  | some a0 =>
    simp only [ha] at hr
    obtain ⟨b0, hb0, hs0⟩ := init_sim m m1 h hp.inv a0 ha
    obtain ⟨m2, hm2, hs⟩ := loop_sim fuel a0 b0 hs0 found m1 hr
    refine ⟨m2, by simp only [hb0, hm2], ?_⟩
    intro hf k
    unfold Map.PrintPath
    rw [← hs.finish]
    exact pathFrom_sim m m1 m2 hp.inv hs k m1.End (hp.hit hf)

set_option maxRecDepth 100000 in
/-- Witness for the amended C8 on the 1 by 2 grid. -/
theorem C8_second_call_after_reset_witness :
    twoCellMap.WellFormed ∧ twoCellMap.Astar 5 = .ok (true, twoCellMap.afterAstar 5) ∧
    ∃ m2, (twoCellMap.afterAstar 5).clearWalked.Astar 5 = .ok (true, m2) ∧
      (true = true → ∀ k, m2.PrintPath k = (twoCellMap.afterAstar 5).PrintPath k) :=
  ⟨by decide, by decide,
    C8_second_call_after_reset twoCellMap (by decide) 5 true (twoCellMap.afterAstar 5)
      (by decide)⟩

/-! ## The heuristic -/

theorem Distance_triangle (a b c : Point) : a.Distance c ≤ a.Distance b + b.Distance c := by
  simp only [Point.Distance]; omega

theorem walk_length_ge (e : Point) :
    ∀ (l : List Point) (c : Point), stepsAdjacent l = true → l.head? = some c →
      l.getLast? = some e → c.Distance e ≤ (l.length : Int) - 1 := by
  intro l
  induction l with
  | nil => intro c _ h; simp at h
  | cons a t ih =>
    intro c hs hh hl
    simp only [List.head?_cons, Option.some.injEq] at hh
    subst hh
    cases t with
    | nil =>
      simp only [List.getLast?_singleton, Option.some.injEq] at hl
      subst hl
      simp [Distance_self]
    | cons b t2 =>
      simp only [stepsAdjacent, Bool.and_eq_true, decide_eq_true_eq] at hs
      rw [List.getLast?_cons_cons] at hl
      have h1 := ih b hs.2 rfl hl
      have h2 := Distance_triangle a b e
      simp only [List.length_cons, Nat.cast_add, Nat.cast_one] at h1 ⊢
      omega

/-- C20: the Manhattan distance to `End` changes by exactly 1 between an in-bounds cell and
each of its neighbours (so it is consistent), and from a cell from which a walk through cells
that are not blocked leads to `End` it is at most the number of steps of that walk (so it is
admissible). -/
theorem C20_heuristic_consistent_admissible (m : Map) :
    (∀ c q, m.InBounds c → q ∈ m.Neighbor c →
      |c.Distance m.End - q.Distance m.End| = 1 ∧
      c.Distance m.End ≤ 1 + q.Distance m.End) ∧
    (∀ c l, m.IsWalk l → l.head? = some c → l.getLast? = some m.End →
      c.Distance m.End ≤ (l.length : Int) - 1) := by
  constructor
  · intro c q hc hq
    obtain ⟨hd, _⟩ := (mem_Neighbor m c q hc).1 hq
    rw [Int.abs_eq_natAbs]
    simp only [Point.Distance] at hd ⊢
    constructor <;> omega
  · intro c l hw hh hl
    exact walk_length_ge m.End l c hw.2 hh hl

/-- Witness for C20 on the 3 by 3 grid: the centre cell and its western neighbour, and a walk
from `Start` to `End`. -/
theorem C20_heuristic_consistent_admissible_witness :
    (|(⟨1, 1⟩ : Point).Distance openMap.End - (⟨0, 1⟩ : Point).Distance openMap.End| = 1 ∧
      (⟨1, 1⟩ : Point).Distance openMap.End ≤ 1 + (⟨0, 1⟩ : Point).Distance openMap.End) ∧
    (⟨0, 0⟩ : Point).Distance openMap.End ≤ (5 : Int) - 1 :=
  ⟨(C20_heuristic_consistent_admissible openMap).1 ⟨1, 1⟩ ⟨0, 1⟩ (by decide) (by decide),
    (C20_heuristic_consistent_admissible openMap).2 ⟨0, 0⟩
      [⟨0, 0⟩, ⟨1, 0⟩, ⟨2, 0⟩, ⟨2, 1⟩, ⟨2, 2⟩] (by decide) (by decide) (by decide)⟩

/-! ## No index out of range, estimates, blocked cells -/

/-- C17: in every state of a run of `Astar` on a well-formed fresh map every walked cell has
`totalStep = movedStep + toMoveStep`, `toMoveStep` equal to the distance from its coordinate to
`End`, and `movedStep ≥ 0`; the `Start` cell is walked with `movedStep = 0` and `totalStep`
equal to the distance from `Start` to `End`. -/
theorem C17_estimate_invariant (m0 : Map) (h : m0.WellFormed) (m : Map) (hd : During m0 m) :
    (∀ p n, nodeAt m.Nodes p = some n → n.walked = true →
      n.totalStep = n.movedStep + n.toMoveStep ∧ n.toMoveStep = n.p.Distance m.End ∧
      0 ≤ n.movedStep) ∧
    ∃ sn, nodeAt m.Nodes m.Start = some sn ∧ sn.walked = true ∧ sn.movedStep = 0 ∧
      sn.totalStep = m.Start.Distance m.End := by
  have hI := During_inv m0 h m hd
  constructor
  · intro p n hn hw
    obtain ⟨_, a2, a3, _⟩ := hI.walkedOk p n hn hw
    have a4 := hI.estimate p n hn hw
    rw [hI.pos p n hn]
    exact ⟨by rw [a3, a4], a4, a2⟩
  · obtain ⟨sn, hsn, hsw⟩ := hI.start_walked
    obtain ⟨_, _, b3⟩ := hI.startNode sn hsn
    have a3 := (hI.walkedOk m.Start sn hsn hsw).2.2.1
    exact ⟨sn, hsn, hsw, b3, by rw [a3, b3]; simp⟩

set_option maxRecDepth 100000 in
/-- Witness for C17: the state in which `Astar` returns on the 3 by 3 grid. -/
theorem C17_estimate_invariant_witness :
    openMap.WellFormed ∧ During openMap (openMap.afterAstar 20) ∧
    ∃ sn, nodeAt (openMap.afterAstar 20).Nodes (openMap.afterAstar 20).Start = some sn ∧
      sn.walked = true ∧ sn.movedStep = 0 ∧
      sn.totalStep = (openMap.afterAstar 20).Start.Distance (openMap.afterAstar 20).End :=
  have hd : During openMap (openMap.afterAstar 20) :=
    Astar_final_during openMap (by decide) 20 true (openMap.afterAstar 20) (by decide)
  ⟨by decide, hd, (C17_estimate_invariant openMap (by decide) (openMap.afterAstar 20) hd).2⟩

/-- C18: in every state of a run of `Astar` on a well-formed fresh map a cell with
`Attr = AttrBlock` has `walked = false` and `father = nil`, is not pointed to by any entry of
`OpenList`, and is not the `father` of any cell. -/
theorem C18_blocked_untouched (m0 : Map) (h : m0.WellFormed) (m : Map) (hd : During m0 m) :
    ∀ p n, nodeAt m.Nodes p = some n → n.Attr = AttrBlock →
      n.walked = false ∧ n.father = none ∧ p ∉ m.OpenList ∧
      ∀ q nq, nodeAt m.Nodes q = some nq → nq.father ≠ some p := by
  have hI := During_inv m0 h m hd
  intro p n hn hb
  have hnw : ∀ n2, nodeAt m.Nodes p = some n2 → n2.walked = true → False := by
    intro n2 hn2 hw
    rw [hn] at hn2
    cases hn2
    exact (hI.walkedOk p n hn hw).1 hb
  have hw : n.walked = false := by
    cases hw : n.walked with
    | false => rfl
    | true => exact absurd hw (fun hw => hnw n hn hw)
  refine ⟨hw, hI.unwalkedOk p n hn hw, ?_, ?_⟩
  · intro he
    obtain ⟨n2, hn2, hw2⟩ := hI.heapOk p he
    exact hnw n2 hn2 hw2
  · intro q nq hq hf
    cases hqw : nq.walked with
    | false =>
      rw [hI.unwalkedOk q nq hq hqw] at hf
      cases hf
    | true =>
      rcases (hI.walkedOk q nq hq hqw).2.2.2 with e | ⟨f, nf, e1, e2, e3, _⟩
      · rw [e] at hq
        rw [(hI.startNode nq hq).2.1] at hf
        cases hf
      · rw [hf] at e1
        cases e1
        exact hnw nf e2 e3

set_option maxRecDepth 100000 in
/-- Witness for C18: the state in which `Astar` returns on the 3 by 1 grid with a blocked
middle cell. -/
theorem C18_blocked_untouched_witness :
    wallMap.WellFormed ∧ During wallMap (wallMap.afterAstar 5) ∧
    ∀ p n, nodeAt (wallMap.afterAstar 5).Nodes p = some n → n.Attr = AttrBlock →
      n.walked = false ∧ n.father = none ∧ p ∉ (wallMap.afterAstar 5).OpenList ∧
      ∀ q nq, nodeAt (wallMap.afterAstar 5).Nodes q = some nq → nq.father ≠ some p :=
  have hd : During wallMap (wallMap.afterAstar 5) :=
    Astar_final_during wallMap (by decide) 5 false (wallMap.afterAstar 5) (by decide)
  ⟨by decide, hd, C18_blocked_untouched wallMap (by decide) (wallMap.afterAstar 5) hd⟩

/-! ## The grid is read-only -/

theorem map_set_same {α β : Type} (f : α → β) :
    ∀ (l : List α) (i : Nat) (a b : α), l[i]? = some b → f a = f b →
      (l.set i a).map f = l.map f := by
  intro l
  induction l with
  | nil => intro i a b h; simp at h
  | cons x t ih =>
    intro i a b h hf
    cases i with
    | zero =>
      simp only [List.getElem?_cons_zero, Option.some.injEq] at h
      subst h
      simp [hf]
    | succ k =>
      simp only [List.getElem?_cons_succ] at h
      simp only [List.set_cons_succ, List.map_cons, ih k a b h hf]

theorem setNode_grid (ns : List (List MapNodeProperty)) (p : Point) (n old : MapNodeProperty)
    (h : nodeAt ns p = some old) (ha : n.Attr = old.Attr) (hp : n.p = old.p) :
    (setNode ns p n).map (fun row => row.map fun x => (x.Attr, x.p)) =
      ns.map (fun row => row.map fun x => (x.Attr, x.p)) := by
  unfold nodeAt at h
  unfold setNode
  by_cases hb : 0 ≤ p.Y ∧ 0 ≤ p.X
  · simp only [hb, and_self, if_true] at h ⊢
    cases hrow : ns[p.Y.toNat]? with
    | none => rfl
    | some row =>
      simp only [hrow] at h ⊢
      refine map_set_same _ ns p.Y.toNat _ row hrow ?_
      exact map_set_same (fun x : MapNodeProperty => (x.Attr, x.p)) row p.X.toNat n old h
        (by simp only [ha, hp])
  · simp only [hb, if_false]

theorem init_grid (m m1 : Map) (h : m.init = some m1) : m1.grid = m.grid := by
  unfold Map.init at h
  cases hs : nodeAt m.Nodes m.Start with
  | none => simp [hs] at h
  | some sn =>
    simp only [hs, Option.some.injEq] at h
    subst h
    simp only [Map.grid, Prod.mk.injEq, true_and]
    exact setNode_grid _ _ _ sn hs rfl rfl

theorem relaxOne_grid (m m1 : Map) (cur point : Point) (h : relaxOne m cur point = some m1) :
    m1.grid = m.grid := by
  unfold relaxOne at h
  cases hd : nodeAt m.Nodes point with
  | none => simp [hd] at h
  | some dn =>
    cases hc : nodeAt m.Nodes cur with
    | none => simp [hd, hc] at h
    | some cn =>
      simp only [hd, hc] at h
      split at h
      · cases h; rfl
      · split at h
        · cases h
          simp only [Map.grid, Prod.mk.injEq, true_and]
          exact setNode_grid _ _ _ dn hd rfl rfl
        · cases h; rfl

theorem relaxAll_grid (cur : Point) :
    ∀ (l : List Point) (m m1 : Map), relaxAll m cur l = some m1 → m1.grid = m.grid := by
  intro l
  induction l with
  | nil =>
    intro m m1 h
    simp only [relaxAll, Option.some.injEq] at h
    rw [h]
  | cons point rest ih =>
    intro m m1 h
    simp only [relaxAll] at h
    cases h1 : relaxOne m cur point with
    | none => simp [h1] at h
    | some m2 =>
      simp only [h1] at h
      rw [ih m2 m1 h, relaxOne_grid m m2 cur point h1]

theorem loopStep_grid (m : Map) :
    (∀ found m1, loopStep m = .done found m1 → m1.grid = m.grid) ∧
    (∀ m1, loopStep m = .next m1 → m1.grid = m.grid) := by
  unfold loopStep
  split
  · exact ⟨fun found m1 h => (by cases h; rfl), fun m1 h => (by cases h)⟩
  · cases hp : heapPop m.Nodes m.OpenList with
    | none => exact ⟨fun found m1 h => (by cases h), fun m1 h => (by cases h)⟩
    | some r =>
      obtain ⟨cur, pq⟩ := r
      simp only
      cases hc : nodeAt m.Nodes cur with
      | none => exact ⟨fun found m1 h => (by cases h), fun m1 h => (by cases h)⟩
      | some cn =>
        simp only
        split
        · exact ⟨fun found m1 h => (by cases h; rfl), fun m1 h => (by cases h)⟩
        · cases hr : relaxAll { m with OpenList := pq } cur
              (Map.Neighbor { m with OpenList := pq } cn.p) with
          | none => exact ⟨fun found m1 h => (by cases h), fun m1 h => (by cases h)⟩
          | some m2 =>
            refine ⟨fun found m1 h => (by cases h), fun m1 h => ?_⟩
            simp only [Step.next.injEq] at h
            rw [← h, relaxAll_grid cur _ _ m2 hr]
            rfl

theorem loop_grid :
    ∀ (fuel : Nat) (m : Map) (found : Bool) (mf : Map), loop fuel m = .ok (found, mf) →
      mf.grid = m.grid := by
  intro fuel
  induction fuel with
  | zero => intro m found mf h; simp [loop] at h
  | succ k ih =>
    intro m found mf h
    simp only [loop] at h
    cases hs : loopStep m with
    | done b m1 =>
      simp only [hs, Res.ok.injEq, Prod.mk.injEq] at h
      rw [← h.2]
      exact (loopStep_grid m).1 b m1 hs
    | next m1 =>
      simp only [hs] at h
      rw [ih m1 found mf h, (loopStep_grid m).2 m1 hs]
    | panic => simp [hs] at h

theorem iterate_grid :
    ∀ (k : Nat) (m mk : Map), iterate m k = some mk → mk.grid = m.grid := by
  intro k
  induction k with
  | zero =>
    intro m mk h
    simp only [iterate, Option.some.injEq] at h
    rw [h]
  | succ k ih =>
    intro m mk h
    simp only [iterate] at h
    cases hs : loopStep m with
    | done b m1 => simp [hs] at h
    | next m1 =>
      simp only [hs] at h
      rw [ih m1 mk h, (loopStep_grid m).2 m1 hs]
    | panic => simp [hs] at h

/-- C12: for every map, the map `Astar` returns with and the map at every loop test of
`Astar` have the `Width`, `Height`, `Start` and `End` of the map `Astar` was called on and, in
every cell, the same `Attr` and the same coordinate `p`; only `movedStep`, `toMoveStep`,
`totalStep`, `father`, `walked` and `OpenList` can differ. -/
theorem C12_grid_read_only (m : Map) :
    (∀ fuel found mf, m.Astar fuel = .ok (found, mf) →
      mf.Width = m.Width ∧ mf.Height = m.Height ∧ mf.Start = m.Start ∧ mf.End = m.End ∧
      mf.Nodes.map (fun row => row.map fun n => (n.Attr, n.p)) =
        m.Nodes.map (fun row => row.map fun n => (n.Attr, n.p))) ∧
    (∀ k mk, headState m k = some mk → mk.grid = m.grid) := by
  constructor
  · intro fuel found mf h
    unfold Map.Astar at h
    cases hi : m.init with
    | none => simp [hi] at h
    | some m0 =>
      simp only [hi] at h
      have e : mf.grid = m.grid := by
        rw [loop_grid fuel m0 found mf h, init_grid m m0 hi]
      simp only [Map.grid, Prod.mk.injEq] at e
      exact e
  · intro k mk h
    unfold headState at h
    cases hi : m.init with
    | none => simp [hi] at h
    | some m0 =>
      simp only [hi] at h
      rw [iterate_grid k m0 mk h, init_grid m m0 hi]

set_option maxRecDepth 100000 in
/-- Witness for C12 on the 9 by 5 grid `detourMap`. -/
theorem C12_grid_read_only_witness :
    detourMap.Astar 30 = .ok (true, detourMap.afterAstar 30) ∧
    (detourMap.afterAstar 30).Width = detourMap.Width ∧
    (detourMap.afterAstar 30).Height = detourMap.Height ∧
    (detourMap.afterAstar 30).Start = detourMap.Start ∧
    (detourMap.afterAstar 30).End = detourMap.End ∧
    (detourMap.afterAstar 30).Nodes.map (fun row => row.map fun n => (n.Attr, n.p)) =
      detourMap.Nodes.map (fun row => row.map fun n => (n.Attr, n.p)) :=
  ⟨by decide,
    (C12_grid_read_only detourMap).1 30 true (detourMap.afterAstar 30) (by decide)⟩

/-! ## Distance is the Manhattan distance -/

theorem wrapInt64_small (x : Int) (h : x.natAbs ≤ 2 ^ 53) : wrapInt64 x = x := by
  unfold wrapInt64
  norm_num at h ⊢
  omega

theorem roundF64_small (x : Int) (h : x.natAbs ≤ 2 ^ 53) : roundF64 x = x := by
  unfold roundF64
  rw [if_pos h]

theorem intOfF64_small (x : Int) (h : x.natAbs ≤ 2 ^ 53) : intOfF64 x = x := by
  unfold intOfF64
  norm_num at h ⊢
  omega

theorem DistanceF64_eq (p q : Point) (h1 : p.X.natAbs ≤ 2 ^ 51) (h2 : p.Y.natAbs ≤ 2 ^ 51)
    (h3 : q.X.natAbs ≤ 2 ^ 51) (h4 : q.Y.natAbs ≤ 2 ^ 51) :
    p.DistanceF64 q = p.Distance q := by
  have k51 : (2 ^ 51 : Nat) = 2251799813685248 := by norm_num
  have k53 : (2 ^ 53 : Nat) = 9007199254740992 := by norm_num
  rw [k51] at h1 h2 h3 h4
  have hx : (p.X - q.X).natAbs ≤ 2 ^ 53 := by rw [k53]; omega
  have hy : (p.Y - q.Y).natAbs ≤ 2 ^ 53 := by rw [k53]; omega
  have hs : (((p.X - q.X).natAbs : Int) + ((p.Y - q.Y).natAbs : Int)).natAbs ≤ 2 ^ 53 := by
    rw [k53]; omega
  unfold Point.DistanceF64 Point.Distance
  rw [wrapInt64_small _ hx, wrapInt64_small _ hy, roundF64_small _ hx, roundF64_small _ hy,
    roundF64_small _ hs, intOfF64_small _ hs]

/-- C13: for points whose coordinates have magnitude at most `2 ^ 51` (so that every
`float64` conversion in `Distance` is exact), `Distance`, evaluated with its 64-bit and
`float64` arithmetic, is `|p.X - q.X| + |p.Y - q.Y|`; it is symmetric, not negative, and it is
0 exactly when `p.Equal q`, which holds exactly when both coordinates agree. -/
theorem C13_distance_manhattan (p q : Point) (h1 : p.X.natAbs ≤ 2 ^ 51)
    (h2 : p.Y.natAbs ≤ 2 ^ 51) (h3 : q.X.natAbs ≤ 2 ^ 51) (h4 : q.Y.natAbs ≤ 2 ^ 51) :
    p.DistanceF64 q = |p.X - q.X| + |p.Y - q.Y| ∧
    p.Distance q = |p.X - q.X| + |p.Y - q.Y| ∧
    p.DistanceF64 q = q.DistanceF64 p ∧
    0 ≤ p.DistanceF64 q ∧
    (p.DistanceF64 q = 0 ↔ p.Equal q = true) ∧
    (p.Equal q = true ↔ p.X = q.X ∧ p.Y = q.Y) := by
  have e := DistanceF64_eq p q h1 h2 h3 h4
  have e' := DistanceF64_eq q p h3 h4 h1 h2
  have hm : p.Distance q = |p.X - q.X| + |p.Y - q.Y| := by
    simp only [Point.Distance, Int.abs_eq_natAbs]
  have heq : p.Equal q = true ↔ p.X = q.X ∧ p.Y = q.Y := by
    simp [Point.Equal]
  refine ⟨by rw [e, hm], hm, by rw [e, e', Distance_comm], by rw [e]; exact Distance_nonneg p q,
    ?_, heq⟩
  rw [e, heq]
  simp only [Point.Distance]
  omega

/-- Witness for C13 at the points `(14,1)` and `(0,3)`. -/
theorem C13_distance_manhattan_witness :
    (⟨14, 1⟩ : Point).DistanceF64 ⟨0, 3⟩ = |(14 : Int) - 0| + |(1 : Int) - 3| ∧
    (⟨14, 1⟩ : Point).DistanceF64 ⟨0, 3⟩ = 16 := by
  have h := C13_distance_manhattan ⟨14, 1⟩ ⟨0, 3⟩ (by decide) (by decide) (by decide) (by decide)
  exact ⟨h.1, by rw [h.1]; decide⟩

/-! ## Generated maps are well-formed -/

theorem Intn_range (r : Nat → Nat) (k : Nat) (n v : Int) (h : Intn r k n = some v) :
    0 < n ∧ 0 ≤ v ∧ v < n := by
  unfold Intn at h
  split at h
  · rename_i hn
    simp only [Option.some.injEq] at h
    subst h
    exact ⟨hn, Int.emod_nonneg _ (by omega), Int.emod_lt_of_pos _ hn⟩
  · cases h

theorem pickEnds_spec (r : Nat → Nat) (w h : Int) :
    ∀ (fuel k : Nat) (s e : Point) (k1 : Nat), pickEnds r w h fuel k = .ok (s, e, k1) →
      (0 ≤ s.X ∧ s.X < w ∧ 0 ≤ s.Y ∧ s.Y < h) ∧ (0 ≤ e.X ∧ e.X < w ∧ 0 ≤ e.Y ∧ e.Y < h) ∧
      s ≠ e := by
  intro fuel
  induction fuel with
  | zero => intro k s e k1 hp; simp [pickEnds] at hp
  | succ n ih =>
    intro k s e k1 hp
    simp only [pickEnds] at hp
    cases h1 : Intn r k w with
    | none => simp [h1] at hp
    | some sx =>
      cases h2 : Intn r (k + 1) h with
      | none => simp [h1, h2] at hp
      | some sy =>
        cases h3 : Intn r (k + 2) w with
        | none => simp [h1, h2, h3] at hp
        | some ex =>
          cases h4 : Intn r (k + 3) h with
          | none => simp [h1, h2, h3, h4] at hp
          | some ey =>
            simp only [h1, h2, h3, h4] at hp
            split at hp
            · rename_i hne
              simp only [Res.ok.injEq, Prod.mk.injEq] at hp
              obtain ⟨e1, e2, _⟩ := hp
              subst e1; subst e2
              have a1 := Intn_range r _ _ _ h1
              have a2 := Intn_range r _ _ _ h2
              have a3 := Intn_range r _ _ _ h3
              have a4 := Intn_range r _ _ _ h4
              refine ⟨⟨a1.2.1, a1.2.2, a2.2.1, a2.2.2⟩, ⟨a3.2.1, a3.2.2, a4.2.1, a4.2.2⟩, ?_⟩
              intro heq
              rw [heq, (Equal_iff _ _).2 rfl] at hne
              cases hne
            · exact ih _ s e k1 hp

theorem nodeAt_table (f : Nat → Nat → MapNodeProperty) (H W : Nat) (p : Point) :
    nodeAt ((List.range H).map fun i => (List.range W).map fun j => f i j) p =
      if 0 ≤ p.Y ∧ 0 ≤ p.X ∧ p.Y.toNat < H ∧ p.X.toNat < W
      then some (f p.Y.toNat p.X.toNat) else none := by
  unfold nodeAt
  by_cases hb : 0 ≤ p.Y ∧ 0 ≤ p.X
  · simp only [hb, and_self, if_true, true_and, List.getElem?_map]
    by_cases hy : p.Y.toNat < H
    · rw [List.getElem?_range hy]
      simp only [Option.map_some', hy, true_and, List.getElem?_map]
      by_cases hx : p.X.toNat < W
      · rw [List.getElem?_range hx]
        simp [hx]
      · rw [List.getElem?_eq_none (by simp; omega)]
        simp [hx]
    · rw [List.getElem?_eq_none (by simp; omega)]
      simp [hy]
  · have : ¬ (0 ≤ p.Y ∧ 0 ≤ p.X ∧ p.Y.toNat < H ∧ p.X.toNat < W) := by
      intro hh; exact hb ⟨hh.1, hh.2.1⟩
    simp only [hb, this, if_false]

theorem genNode_attr (r : Nat → Nat) (k : Nat) (s e : Point) (i j : Nat) (hne : s ≠ e) :
    ((genNode r k s e i j).Attr = AttrStart ↔ (⟨j, i⟩ : Point) = s) ∧
    ((genNode r k s e i j).Attr = AttrEnd ↔ (⟨j, i⟩ : Point) = e) ∧
    ((⟨j, i⟩ : Point) ≠ s → (⟨j, i⟩ : Point) ≠ e →
      (genNode r k s e i j).Attr = AttrNone ∨ (genNode r k s e i j).Attr = AttrBlock) := by
  obtain ⟨sx, sy⟩ := s
  obtain ⟨ex, ey⟩ := e
  simp only [genNode, Point.mk.injEq, AttrStart, AttrEnd, AttrNone, AttrBlock, ne_eq] at hne ⊢
  split_ifs <;>
    refine ⟨⟨fun h => ?_, fun h => ?_⟩, ⟨fun h => ?_, fun h => ?_⟩, fun h h' => ?_⟩ <;>
    omega

/-- C14: whenever `Generate` returns, whatever the dimensions and the random draws, the map
has `Height` rows of `Width` nodes with `Nodes[i][j].p = (j, i)` and fresh search fields,
`Start` and `End` are in bounds and distinct (the map is well-formed), the cell at `Start` is
the only one with `Attr = AttrStart`, the cell at `End` the only one with `Attr = AttrEnd`, and
every other cell has `AttrNone` or `AttrBlock`. -/
theorem C14_generate_well_formed (r : Nat → Nat) (fuel : Nat) (m m1 : Map)
    (h : m.Generate r fuel = .ok m1) :
    m1.Width = m.Width ∧ m1.Height = m.Height ∧
    m1.Nodes.length = m1.Height.toNat ∧ (∀ row ∈ m1.Nodes, row.length = m1.Width.toNat) ∧
    m1.InBounds m1.Start ∧ m1.InBounds m1.End ∧ m1.Start ≠ m1.End ∧
    m1.WellFormed ∧
    ∀ p, m1.InBounds p → ∃ n, nodeAt m1.Nodes p = some n ∧ n.p = p ∧
      (n.Attr = AttrStart ↔ p = m1.Start) ∧ (n.Attr = AttrEnd ↔ p = m1.End) ∧
      (p ≠ m1.Start → p ≠ m1.End → n.Attr = AttrNone ∨ n.Attr = AttrBlock) := by
  unfold Map.Generate at h
  cases hp : pickEnds r m.Width m.Height fuel 0 with
  | outOfFuel => simp [hp] at h
  | panic => simp [hp] at h
  | ok res =>
    obtain ⟨s, e, k⟩ := res
    simp only [hp, Res.ok.injEq] at h
    obtain ⟨hs, he, hne⟩ := pickEnds_spec r m.Width m.Height fuel 0 s e k hp
    subst h
    have hnode : ∀ p : Point, (0 ≤ p.X ∧ p.X < m.Width ∧ 0 ≤ p.Y ∧ p.Y < m.Height) →
        nodeAt ((List.range m.Height.toNat).map fun i =>
          (List.range m.Width.toNat).map fun j =>
            genNode r (k + i * m.Width.toNat + j) s e i j) p =
        some (genNode r (k + p.Y.toNat * m.Width.toNat + p.X.toNat) s e p.Y.toNat p.X.toNat) := by
      intro p hb
      rw [nodeAt_table (fun i j => genNode r (k + i * m.Width.toNat + j) s e i j)]
      rw [if_pos ⟨hb.2.2.1, hb.1, by omega, by omega⟩]
    have hpt : ∀ p : Point, 0 ≤ p.X → 0 ≤ p.Y →
        (⟨(p.X.toNat : Int), (p.Y.toNat : Int)⟩ : Point) = p := by
      intro p h1 h2
      obtain ⟨x, y⟩ := p
      simp only at h1 h2
      simp only [Point.mk.injEq]
      constructor <;> omega
    have hrows : ((List.range m.Height.toNat).map fun i =>
          (List.range m.Width.toNat).map fun j =>
            genNode r (k + i * m.Width.toNat + j) s e i j).length = m.Height.toNat := by
      simp
    have hcols : ∀ row ∈ ((List.range m.Height.toNat).map fun i =>
          (List.range m.Width.toNat).map fun j =>
            genNode r (k + i * m.Width.toNat + j) s e i j), row.length = m.Width.toNat := by
      intro row hrow
      simp only [List.mem_map, List.mem_range] at hrow
      obtain ⟨i, _, hi⟩ := hrow
      rw [← hi]
      simp
    have hcell : ∀ p : Point, (0 ≤ p.X ∧ p.X < m.Width ∧ 0 ≤ p.Y ∧ p.Y < m.Height) →
        (genNode r (k + p.Y.toNat * m.Width.toNat + p.X.toNat) s e p.Y.toNat p.X.toNat).p = p :=
      fun p hb => hpt p hb.1 hb.2.2.1
    have hfree : ∀ p : Point, (0 ≤ p.X ∧ p.X < m.Width ∧ 0 ≤ p.Y ∧ p.Y < m.Height) →
        (p = s ∨ p = e) →
        Map.Free { m with
          Start := s
          End := e
          Nodes := (List.range m.Height.toNat).map fun i =>
            (List.range m.Width.toNat).map fun j =>
              genNode r (k + i * m.Width.toNat + j) s e i j } p := by
      intro p hb hse
      refine (free_iff_node _ p).2 ⟨hb, _, hnode p hb, ?_⟩
      have ha := genNode_attr r (k + p.Y.toNat * m.Width.toNat + p.X.toNat) s e
        p.Y.toNat p.X.toNat hne
      rw [hpt p hb.1 hb.2.2.1] at ha
      rcases hse with hse | hse
      · rw [ha.1.2 hse]; decide
      · rw [ha.2.1.2 hse]; decide
    refine ⟨rfl, rfl, hrows, hcols, hs, he, hne, ?_, ?_⟩
    · refine ⟨hrows, hcols, ?_, hne, hfree s hs (Or.inl rfl), hfree e he (Or.inr rfl)⟩
      intro y hy x hx
      have hb : (0 : Int) ≤ (x : Int) ∧ (x : Int) < m.Width ∧ (0 : Int) ≤ (y : Int) ∧
          (y : Int) < m.Height := by
        have hy1 : y < m.Height.toNat := by
          have := hy
          simp only [List.length_map, List.length_range] at this
          exact this
        have hx1 : x < m.Width.toNat := hx
        omega
      have := hnode ⟨x, y⟩ hb
      unfold cellFresh
      simp only at this ⊢
      rw [this]
      simp [genNode]
    · intro p hb
      refine ⟨_, hnode p hb, hcell p hb, ?_⟩
      have ha := genNode_attr r (k + p.Y.toNat * m.Width.toNat + p.X.toNat) s e
        p.Y.toNat p.X.toNat hne
      rw [hpt p hb.1 hb.2.2.1] at ha
      exact ha

set_option maxRecDepth 100000 in
/-- Witness for C14: the 3 by 2 map generated from the random source `fun k => 7 * k + 2`,
which has `Start = (2,1)`, `End = (1,1)` and the cell `(0,0)` blocked. -/
theorem C14_generate_well_formed_witness :
    (NewMap 3 2).Generate (fun k => 7 * k + 2) 4 = .ok (gridMap 3 2 [⟨0, 0⟩] ⟨2, 1⟩ ⟨1, 1⟩) ∧
    (gridMap 3 2 [⟨0, 0⟩] ⟨2, 1⟩ ⟨1, 1⟩).WellFormed :=
  have h : (NewMap 3 2).Generate (fun k => 7 * k + 2) 4 =
      .ok (gridMap 3 2 [⟨0, 0⟩] ⟨2, 1⟩ ⟨1, 1⟩) := by decide
  ⟨h, (C14_generate_well_formed (fun k => 7 * k + 2) 4 (NewMap 3 2) _ h).2.2.2.2.2.2.2.1⟩

/-! ## Expanding a cell again -/

theorem Lower_refl (m : Map) : Lower m m :=
  fun _ n hn hw => ⟨n, hn, hw, le_refl _⟩

theorem Lower_trans {a b c : Map} (h1 : Lower a b) (h2 : Lower b c) : Lower a c := by
  intro p n hn hw
  obtain ⟨n1, hn1, hw1, hle1⟩ := h1 p n hn hw
  obtain ⟨n2, hn2, hw2, hle2⟩ := h2 p n1 hn1 hw1
  exact ⟨n2, hn2, hw2, le_trans hle2 hle1⟩

theorem relaxOne_lower (m m1 : Map) (cur point : Point)
    (h : relaxOne m cur point = some m1) : Lower m m1 := by
  unfold relaxOne at h
  cases hd : nodeAt m.Nodes point with
  | none => simp [hd] at h
  | some dn =>
    cases hc : nodeAt m.Nodes cur with
    | none => simp [hd, hc] at h
    | some cn =>
      simp only [hd, hc] at h
      split at h
      · cases h; exact Lower_refl m
      · split at h
        · rename_i hcond
          cases h
          intro p n hn hw
          simp only
          rw [nodeAt_setNode]
          by_cases hp : p = point
          · rw [if_pos hp, hd]
            rw [hp, hd] at hn
            cases hn
            refine ⟨_, rfl, rfl, ?_⟩
            rcases hcond with hf | hgt
            · rw [hw] at hf; cases hf
            · exact le_of_lt hgt
          · rw [if_neg hp]
            exact ⟨n, hn, hw, le_refl _⟩
        · cases h; exact Lower_refl m

theorem relaxAll_lower (cur : Point) :
    ∀ (l : List Point) (m m1 : Map), relaxAll m cur l = some m1 → Lower m m1 := by
  intro l
  induction l with
  | nil =>
    intro m m1 h
    simp only [relaxAll, Option.some.injEq] at h
    rw [← h]
    exact Lower_refl m
  | cons point rest ih =>
    intro m m1 h
    simp only [relaxAll] at h
    cases h1 : relaxOne m cur point with
    | none => simp [h1] at h
    | some m2 =>
      simp only [h1] at h
      exact Lower_trans (relaxOne_lower m m2 cur point h1) (ih m2 m1 h)

theorem loopStep_next_inv (m m1 : Map) (h : loopStep m = .next m1) :
    ∃ cur pq cn, heapPop m.Nodes m.OpenList = some (cur, pq) ∧
      nodeAt m.Nodes cur = some cn ∧ cn.p.Equal m.End = false ∧
      relaxAll { m with OpenList := pq } cur (Map.Neighbor { m with OpenList := pq } cn.p) =
        some m1 := by
  unfold loopStep at h
  split at h
  · cases h
  · cases hp : heapPop m.Nodes m.OpenList with
    | none => simp [hp] at h
    | some r =>
      obtain ⟨cur, pq⟩ := r
      simp only [hp] at h
      cases hc : nodeAt m.Nodes cur with
      | none => simp [hc] at h
      | some cn =>
        simp only [hc] at h
        split at h
        · cases h
        · rename_i he
          cases hr : relaxAll { m with OpenList := pq } cur
              (Map.Neighbor { m with OpenList := pq } cn.p) with
          | none => simp [hr] at h
          | some m2 =>
            simp only [hr, Step.next.injEq] at h
            refine ⟨cur, pq, cn, rfl, hc, ?_, by rw [← h]; exact hr⟩
            cases hh : cn.p.Equal m.End with
            | true => exact absurd hh he
            | false => rfl

theorem loopStep_lower (m m1 : Map) (h : loopStep m = .next m1) : Lower m m1 := by
  obtain ⟨cur, pq, cn, _, _, _, hr⟩ := loopStep_next_inv m m1 h
  have hl := relaxAll_lower cur _ { m with OpenList := pq } m1 hr
  intro p n hn hw
  exact hl p n hn hw

theorem iterate_lower :
    ∀ (k : Nat) (m mk : Map), iterate m k = some mk → Lower m mk := by
  intro k
  induction k with
  | zero =>
    intro m mk h
    simp only [iterate, Option.some.injEq] at h
    rw [← h]
    exact Lower_refl m
  | succ k ih =>
    intro m mk h
    simp only [iterate] at h
    cases hs : loopStep m with
    | done b m1 => simp [hs] at h
    | next m1 =>
      simp only [hs] at h
      exact Lower_trans (loopStep_lower m m1 hs) (ih m1 mk h)
    | panic => simp [hs] at h

theorem iterate_split :
    ∀ (a b : Nat) (m mk : Map), iterate m (a + b) = some mk →
      ∃ x, iterate m a = some x ∧ iterate x b = some mk := by
  intro a
  induction a with
  | zero =>
    intro b m mk h
    rw [Nat.zero_add] at h
    exact ⟨m, rfl, h⟩
  | succ a ih =>
    intro b m mk h
    rw [Nat.add_right_comm] at h
    simp only [iterate] at h ⊢
    cases hs : loopStep m with
    | done f m1 => simp [hs] at h
    | next m1 =>
      simp only [hs] at h ⊢
      exact ih b m1 mk h
    | panic => simp [hs] at h

theorem Settled_lower {m0 m m1 : Map} {c : Point} {g : Int} (hs : Settled m0 m c g)
    (hl : Lower m m1) : Settled m0 m1 c g := by
  intro q hq hf
  obtain ⟨nq, hn, hw, hle⟩ := hs q hq hf
  obtain ⟨n1, hn1, hw1, hle1⟩ := hl q nq hn hw
  exact ⟨n1, hn1, hw1, le_trans hle1 hle⟩

theorem relaxOne_bound (m0 m m1 : Map) (cur point : Point) (hI : Inv m0 m)
    (hne : point ≠ cur) (h : relaxOne m cur point = some m1) :
    movedOf m1.Nodes cur = movedOf m.Nodes cur ∧
    (m0.Free point → ∃ nq, nodeAt m1.Nodes point = some nq ∧ nq.walked = true ∧
      nq.totalStep ≤ movedOf m.Nodes cur + 1 + point.Distance m0.End) := by
  unfold relaxOne at h
  cases hd : nodeAt m.Nodes point with
  | none => simp [hd] at h
  | some dn =>
    cases hc : nodeAt m.Nodes cur with
    | none => simp [hd, hc] at h
    | some cn =>
      have hdp := hI.pos point dn hd
      have hfin := hI.finish
      simp only [hd, hc] at h
      split at h
      · rename_i hblk
        cases h
        refine ⟨rfl, fun hf => ?_⟩
        obtain ⟨_, n, hn, ha⟩ := (free_iff_node m point).1 ((hI.free_iff point).2 hf)
        rw [hd] at hn
        cases hn
        exact absurd hblk ha
      · split at h
        · cases h
          simp only
          constructor
          · simp only [movedOf]
            rw [nodeAt_setNode_ne _ _ _ _ (Ne.symm hne)]
          · intro _
            refine ⟨_, nodeAt_setNode_self _ _ _ dn hd, rfl, ?_⟩
            simp only [movedOf, hc]
            rw [hdp, hfin]
        · rename_i hcond
          cases h
          refine ⟨rfl, fun _ => ⟨dn, hd, ?_, ?_⟩⟩
          · cases hw : dn.walked with
            | true => rfl
            | false => exact absurd (Or.inl hw) hcond
          · simp only [movedOf, hc]
            rw [hdp, hfin] at hcond
            have : ¬ dn.totalStep > cn.movedStep + 1 + point.Distance m0.End :=
              fun hh => hcond (Or.inr hh)
            omega

theorem relaxAll_settled (m0 : Map) (cur : Point) :
    ∀ (l : List Point) (m m1 : Map), Inv m0 m → m.Walked cur →
      (∀ q ∈ l, q ∈ m0.Neighbor cur) → relaxAll m cur l = some m1 →
      movedOf m1.Nodes cur = movedOf m.Nodes cur ∧
      ∀ q ∈ l, m0.Free q → ∃ nq, nodeAt m1.Nodes q = some nq ∧ nq.walked = true ∧
        nq.totalStep ≤ movedOf m.Nodes cur + 1 + q.Distance m0.End := by
  intro l
  induction l with
  | nil =>
    intro m m1 _ _ _ h
    simp only [relaxAll, Option.some.injEq] at h
    rw [← h]
    exact ⟨rfl, fun q hq => absurd hq (List.not_mem_nil q)⟩
  | cons point rest ih =>
    intro m m1 hI hc hl h
    simp only [relaxAll] at h
    have hpn : point ∈ m.Neighbor cur := by
      rw [hI.neighbor]; exact hl point (List.mem_cons_self _ _)
    have hne : point ≠ cur := by
      intro e
      have := ((mem_Neighbor m cur point (hI.walked_inBounds hc)).1 hpn).1
      rw [e, Distance_self] at this
      omega
    obtain ⟨m2, h2, hI2, hE2, _⟩ := relaxOne_spec m0 m cur point hI hc hpn
    rw [h2] at h
    simp only at h
    obtain ⟨hb1, hb2⟩ := relaxOne_bound m0 m m2 cur point hI hne h2
    obtain ⟨hr1, hr2⟩ := ih m2 m1 hI2 (hE2.walked cur hc)
      (fun q hq => hl q (List.mem_cons_of_mem _ hq)) h
    refine ⟨by rw [hr1, hb1], ?_⟩
    intro q hq hf
    rcases List.mem_cons.1 hq with e | hq
    · rw [e]
      obtain ⟨nq, hn, hw, hle⟩ := hb2 (e ▸ hf)
      obtain ⟨n1, hn1, hw1, hle1⟩ := relaxAll_lower cur rest m2 m1 h point nq hn hw
      exact ⟨n1, hn1, hw1, le_trans hle1 hle⟩
    · rw [← hb1]
      exact hr2 q hq hf

theorem relaxOne_noop (m0 m : Map) (cur point : Point) (hI : Inv m0 m) (hc : m.Walked cur)
    (hpn : point ∈ m0.Neighbor cur)
    (hs : m0.Free point → ∃ nq, nodeAt m.Nodes point = some nq ∧ nq.walked = true ∧
      nq.totalStep ≤ movedOf m.Nodes cur + 1 + point.Distance m0.End) :
    relaxOne m cur point = some m := by
  have hcb := hI.walked_inBounds hc
  rw [← hI.neighbor] at hpn
  obtain ⟨_, hpb⟩ := (mem_Neighbor m cur point hcb).1 hpn
  obtain ⟨cn, hcn, _⟩ := hc
  obtain ⟨dn, hdn⟩ := (hI.shape point).1 hpb
  have hdp := hI.pos point dn hdn
  unfold relaxOne
  simp only [hdn, hcn]
  by_cases hblk : dn.Attr = AttrBlock
  · rw [if_pos hblk]
  · rw [if_neg hblk]
    have hf : m0.Free point :=
      (hI.free_iff point).1 ((free_iff_node m point).2 ⟨hpb, dn, hdn, hblk⟩)
    obtain ⟨nq, hn, hw, hle⟩ := hs hf
    rw [hdn] at hn
    cases hn
    simp only [movedOf, hcn] at hle
    rw [if_neg]
    rintro (h | h)
    · rw [hw] at h; cases h
    · rw [hdp, hI.finish] at h
      omega

theorem relaxAll_noop (m0 m : Map) (cur : Point) (hI : Inv m0 m) (hc : m.Walked cur) :
    ∀ (l : List Point), (∀ q ∈ l, q ∈ m0.Neighbor cur) →
      (∀ q ∈ l, m0.Free q → ∃ nq, nodeAt m.Nodes q = some nq ∧ nq.walked = true ∧
        nq.totalStep ≤ movedOf m.Nodes cur + 1 + q.Distance m0.End) →
      relaxAll m cur l = some m := by
  intro l
  induction l with
  | nil => intro _ _; rfl
  | cons point rest ih =>
    intro hl hs
    simp only [relaxAll]
    rw [relaxOne_noop m0 m cur point hI hc (hl point (List.mem_cons_self _ _))
      (hs point (List.mem_cons_self _ _))]
    exact ih (fun q hq => hl q (List.mem_cons_of_mem _ hq))
      (fun q hq => hs q (List.mem_cons_of_mem _ hq))

theorem heapPop_nonempty (ns : List (List MapNodeProperty)) (pq : PriorityQueue)
    (r : Point × PriorityQueue) (h : heapPop ns pq = some r) : pq ≠ [] := by
  intro e
  rw [e] at h
  simp [heapPop] at h

/-- C19: in a run of `Astar` on a well-formed fresh map, if iteration `k1` pops and expands
the cell `c` and a later iteration `k2` pops `c` again while `c` has the same `movedStep` as at
iteration `k1`, then iteration `k2` changes no node and pushes nothing: it leaves the map as
it is right after its `heap.Pop`. -/
theorem C19_reexpansion_noop (m0 : Map) (h : m0.WellFormed) (k1 k2 : Nat) (hk : k1 < k2)
    (ma mb : Map) (c : Point) (pqa pqb : PriorityQueue)
    (ha : headState m0 k1 = some ma) (hpa : heapPop ma.Nodes ma.OpenList = some (c, pqa))
    (hb : headState m0 k2 = some mb) (hpb : heapPop mb.Nodes mb.OpenList = some (c, pqb))
    (hg : movedOf mb.Nodes c = movedOf ma.Nodes c) :
    loopStep mb = .next { mb with OpenList := pqb } := by
  obtain ⟨m1, h1, hI1, hC1⟩ := init_spec m0 h
  simp only [headState, h1] at ha hb
  obtain ⟨d, hd⟩ : ∃ d, k2 = k1 + (1 + d) := ⟨k2 - k1 - 1, by omega⟩
  rw [hd] at hb
  obtain ⟨x, hx1, hx2⟩ := iterate_split k1 (1 + d) m1 mb hb
  rw [ha] at hx1
  cases hx1
  obtain ⟨y, hy1, hy2⟩ := iterate_split 1 d ma mb hx2
  have hstep : loopStep ma = .next y := by
    simp only [iterate] at hy1
    cases hs : loopStep ma with
    | done f m2 => simp [hs] at hy1
    | next m2 =>
      simp only [hs, Option.some.injEq] at hy1
      rw [hy1]
    | panic => simp [hs] at hy1
  obtain ⟨hIa, _⟩ := iterate_inv m0 k1 m1 ma hI1 hC1 ha
  obtain ⟨hIb, _⟩ := iterate_inv m0 (k1 + (1 + d)) m1 mb hI1 hC1 hb
  -- the first expansion
  obtain ⟨cur, pq, cn, hpop, hcn, hne, hrel⟩ := loopStep_next_inv ma y hstep
  rw [hpa] at hpop
  simp only [Option.some.injEq, Prod.mk.injEq] at hpop
  obtain ⟨e1, e2⟩ := hpop
  subst e1; subst e2
  obtain ⟨cur', pq', hpop', _, hmema⟩ :=
    heapPop_spec ma.Nodes ma.OpenList (heapPop_nonempty _ _ _ hpa)
  rw [hpa] at hpop'
  simp only [Option.some.injEq, Prod.mk.injEq] at hpop'
  obtain ⟨e1, e2⟩ := hpop'
  subst e1; subst e2
  have hcwa : ma.Walked c := hIa.heapOk c ((hmema c).2 (Or.inl rfl))
  have hIa1 : Inv m0 { ma with OpenList := pqa } :=
    hIa.popped pqa (fun e he => (hmema e).2 (Or.inr he))
  have hcp : cn.p = c := hIa.pos c cn hcn
  rw [hcp, hIa1.neighbor] at hrel
  have hset : Settled m0 y c (movedOf ma.Nodes c) :=
    (relaxAll_settled m0 c (m0.Neighbor c) { ma with OpenList := pqa } y hIa1 hcwa
      (fun q hq => hq) hrel).2
  have hsetb : Settled m0 mb c (movedOf ma.Nodes c) :=
    Settled_lower hset (iterate_lower d y mb hy2)
  -- the second expansion
  obtain ⟨cur2, pq2, hpop2, _, hmemb⟩ :=
    heapPop_spec mb.Nodes mb.OpenList (heapPop_nonempty _ _ _ hpb)
  rw [hpb] at hpop2
  simp only [Option.some.injEq, Prod.mk.injEq] at hpop2
  obtain ⟨e1, e2⟩ := hpop2
  subst e1; subst e2
  have hcwb : mb.Walked c := hIb.heapOk c ((hmemb c).2 (Or.inl rfl))
  have hIb1 : Inv m0 { mb with OpenList := pqb } :=
    hIb.popped pqb (fun e he => (hmemb e).2 (Or.inr he))
  obtain ⟨cb, hcb, _⟩ := hcwb
  have hcbp : cb.p = c := hIb.pos c cb hcb
  have hend : mb.End = ma.End := by rw [hIb.finish, hIa.finish]
  have hl0 : ¬ mb.OpenList.length = 0 := by
    intro e
    exact heapPop_nonempty _ _ _ hpb (List.length_eq_zero.1 e)
  have hnoop : relaxAll { mb with OpenList := pqb } c (m0.Neighbor c) =
      some { mb with OpenList := pqb } := by
    refine relaxAll_noop m0 { mb with OpenList := pqb } c hIb1 ⟨cb, hcb, by assumption⟩
      (m0.Neighbor c) (fun q hq => hq) ?_
    intro q hq hf
    obtain ⟨nq, hn, hw, hle⟩ := hsetb q hq hf
    refine ⟨nq, hn, hw, ?_⟩
    show nq.totalStep ≤ movedOf mb.Nodes c + 1 + q.Distance m0.End
    rw [hg]
    exact hle
  have hEq : cb.p.Equal mb.End = false := by
    rw [hcbp, hend, ← hcp]
    exact hne
  have hnb : Map.Neighbor { mb with OpenList := pqb } cb.p = m0.Neighbor c := by
    rw [hcbp]
    exact hIb1.neighbor c
  unfold loopStep
  simp only [hl0, if_false, hpb, hcb, hEq, Bool.false_eq_true]
  rw [hnb, hnoop]

set_option maxRecDepth 1000000 in
/-- Witness for C19: on `reopenMap` the cell `(2,0)` is popped and expanded in iteration 10
with `movedStep = 3` and popped again in iteration 11 with the same `movedStep`. -/
theorem C19_reexpansion_noop_witness :
    reopenMap.WellFormed ∧
    popCell reopenMap 10 = some (⟨2, 0⟩, 3) ∧ popCell reopenMap 11 = some (⟨2, 0⟩, 3) ∧
    loopStep (headMap reopenMap 11) =
      .next { headMap reopenMap 11 with OpenList := [⟨1, 0⟩, ⟨5, 0⟩] } :=
  ⟨by decide, by decide, by decide,
    C19_reexpansion_noop reopenMap (by decide) 10 11 (by decide)
      (headMap reopenMap 10) (headMap reopenMap 11) ⟨2, 0⟩ [⟨2, 0⟩, ⟨5, 0⟩] [⟨1, 0⟩, ⟨5, 0⟩]
      (by decide) (by decide) (by decide) (by decide) (by decide)⟩

/-! ## Concrete runs -/

set_option maxRecDepth 100000 in
/-- C1 (failing input): on the well-formed fresh 9 by 5 map `detourMap`, `Astar` returns true
and the route read off the `father` links has 10 edges, although a walk of 8 orthogonal steps
from `Start` to `End` through cells that are not blocked exists. -/
theorem C1_route_not_shortest :
    detourMap.WellFormed ∧
    detourMap.search 30 = .ok (true,
      [⟨7, 1⟩, ⟨7, 0⟩, ⟨6, 0⟩, ⟨5, 0⟩, ⟨5, 1⟩, ⟨4, 1⟩, ⟨3, 1⟩, ⟨2, 1⟩, ⟨1, 1⟩, ⟨1, 2⟩, ⟨1, 3⟩]) ∧
    detourMap.IsWalk
      [⟨1, 3⟩, ⟨2, 3⟩, ⟨3, 3⟩, ⟨4, 3⟩, ⟨5, 3⟩, ⟨6, 3⟩, ⟨7, 3⟩, ⟨7, 2⟩, ⟨7, 1⟩] ∧
    detourMap.Start = ⟨1, 3⟩ ∧ detourMap.End = ⟨7, 1⟩ := by
  decide

set_option maxRecDepth 100000 in
/-- C9 (failing input): on the well-formed fresh 3 by 9 map `staleKeyMap`, the `heap.Pop` of
iteration 8 returns an entry with `totalStep = 12` while two entries with `totalStep = 10`
remain in `OpenList`. -/
theorem C9_pop_not_minimum :
    staleKeyMap.WellFormed ∧ popKeys staleKeyMap 8 = some (12, [10, 10, 12]) := by
  decide

set_option maxRecDepth 100000 in
/-- C8 (counterexample): on the well-formed fresh 1 by 2 map `twoCellMap` the first call of
`Astar` returns true and a second call on the map left by the first returns false. -/
theorem C8_second_call_differs :
    twoCellMap.WellFormed ∧ twoCellMap.searchTwice 5 = .ok (true, false) := by
  decide

set_option maxRecDepth 1000000 in
/-- C5 (failing input): on the well-formed fresh 16 by 5 map `wideMap`, which has no blocked
cell, `Astar` returns true and the route read off the `father` links has 18 edges, although the
Manhattan distance between `Start` and `End` is 16. -/
theorem C5_open_grid_detour :
    wideMap.WellFormed ∧ (∀ row ∈ wideMap.Nodes, ∀ n ∈ row, n.Attr ≠ AttrBlock) ∧
    wideMap.searchLength 60 = .ok (true, 18) ∧
    wideMap.Start.Distance wideMap.End = 16 := by
  decide

set_option maxRecDepth 1000000 in
/-- C15 (failing input): on the well-formed fresh 6 by 3 map `reopenMap` the cell `(1,0)`,
which is not `End`, is popped and expanded in iteration 9 with `movedStep = 6`, although a walk
of 4 steps leads to it from `Start`; iteration 10 then lowers its `movedStep` to 4, replaces its
`father` and pushes it onto `OpenList` again, and iteration 12 pops it a second time. -/
theorem C15_popped_cell_updated :
    reopenMap.WellFormed ∧ reopenMap.Start = ⟨4, 1⟩ ∧ reopenMap.End ≠ ⟨1, 0⟩ ∧
    popCell reopenMap 9 = some (⟨1, 0⟩, 6) ∧
    reopenMap.IsWalk [⟨4, 1⟩, ⟨4, 0⟩, ⟨3, 0⟩, ⟨2, 0⟩, ⟨1, 0⟩] ∧
    cellAt reopenMap 10 ⟨1, 0⟩ = some (6, some ⟨1, 1⟩, false) ∧
    cellAt reopenMap 11 ⟨1, 0⟩ = some (4, some ⟨2, 0⟩, true) ∧
    popCell reopenMap 12 = some (⟨1, 0⟩, 4) := by
  decide

set_option maxRecDepth 1000000 in
/-- C16 (failing input): on the well-formed fresh 9 by 4 map `staleChildMap`, in the state in
which `Astar` returns true, the walked cell `(2,2)` has `movedStep = 9` and `father = (3,2)`,
while the cell `(3,2)` has `movedStep = 6`. -/
theorem C16_father_not_one_less :
    staleChildMap.WellFormed ∧
    staleChildMap.Astar 30 = .ok (true, staleChildMap.afterAstar 30) ∧
    (nodeAt (staleChildMap.afterAstar 30).Nodes ⟨2, 2⟩).map
      (fun n => (n.walked, n.father, n.movedStep)) = some (true, some ⟨3, 2⟩, 9) ∧
    movedOf (staleChildMap.afterAstar 30).Nodes ⟨3, 2⟩ = 6 := by
  decide

end Astar
